import Mathlib

/-!
# Length-prefixed packet ports (`port.Packet`)

A shallow embedding of `packet.go` / `port.go`: the packet port keeps a reader,
a writer, the largest payload length `max` and a scratch buffer `sizeBuf` of
1, 2 or 4 bytes.  Go methods on `*packetPort` mutate the receiver; here every
method takes the port state and returns the new one next to the Go results.

Conventions
* a byte is a `Fin 256`; a Go `[]byte` is a `List Byte`;
* a Go `error` is an `Option Error` (`none` is `nil`);
* Go `int` is `intSize` bits wide (32 or 64), two's complement;
* loops that call the underlying reader take `fuel`, the number of iterations
  they may run; running out of it is `Halt.outOfFuel`.
-/

namespace Port

/-- One octet. -/
abbrev Byte := Fin 256

/-- The error values the package can hand back: the two `io` sentinels that
`io.ReadFull` produces, `io.ErrShortBuffer`, the three errors declared in
`port.go`, and any other error of the underlying streams. -/
inductive Error where
  | EOF
  | ErrUnexpectedEOF
  | ErrShortBuffer
  | ErrBadSizeLen
  | ErrSizeOverflow
  | ErrTooBig
  | other (code : Nat)
  deriving DecidableEq, Repr

/-- Why a call did not return: the iteration budget ran out, or the Go runtime
raised a run-time panic (negative slice bound, negative `make` length). -/
inductive Halt where
  | outOfFuel
  | runtimePanic
  deriving DecidableEq, Repr

/-- Conversion to `byte` / `uint8`: the low eight bits. -/
def uint8 (v : Int) : Byte := ⟨(v % 256).toNat, by omega⟩

/-- Conversion to `uint16`: the low sixteen bits. -/
def uint16 (v : Int) : Nat := (v % 2 ^ 16).toNat

/-- Conversion to `uint32`: the low thirty-two bits. -/
def uint32 (v : Int) : Nat := (v % 2 ^ 32).toNat

/-- Conversion of an unsigned value to Go `int` of `intSize` bits: reduce modulo
`2 ^ intSize` and read the result as two's complement. -/
def toInt (intSize : Nat) (v : Nat) : Int :=
  if v % 2 ^ intSize < 2 ^ (intSize - 1) then ((v % 2 ^ intSize : Nat) : Int)
  else ((v % 2 ^ intSize : Nat) : Int) - ((2 ^ intSize : Nat) : Int)

/-- An in-memory `io.Reader`: `data` are the bytes not yet delivered; `chunks`
bounds the successive reads that deliver something (an entry `c` lets the read
hand out at most `c + 1` bytes, an exhausted list puts no bound). -/
structure Reader where
  data : List Byte
  chunks : List Nat
  deriving DecidableEq, Repr

/-- The call `r.Read(p)`: result `(n, err)`, the new contents of `p`, the reader
afterwards.  A zero-length `p` gives `(0, nil)`; an exhausted stream gives
`(0, io.EOF)`; otherwise at least one byte is copied to the front of `p`. -/
def Reader.Read (r : Reader) (p : List Byte) : (Nat × Option Error) × List Byte × Reader :=
  if p.length = 0 then ((0, none), p, r)
  else if r.data.length = 0 then ((0, some Error.EOF), p, r)
  else
    let limit := match r.chunks with
      | [] => p.length
      | c :: _ => c + 1
    let n := min (min p.length r.data.length) limit
    ((n, none), r.data.take n ++ p.drop n, { data := r.data.drop n, chunks := r.chunks.tail })

/-- An in-memory `io.Writer`: `out` are the bytes accepted so far, `log` the
arguments of the calls made so far, `script` the outcome of the coming calls
(`none`, or an exhausted script: the call accepts everything; `some (k, e)`: it
accepts at most `k` bytes and returns the error `e`). -/
structure Writer where
  out : List Byte
  script : List (Option (Nat × Error))
  log : List (List Byte)
  deriving DecidableEq, Repr

/-- The call `w.Write(p)`: result `(n, err)` and the writer afterwards. -/
def Writer.Write (w : Writer) (p : List Byte) : (Nat × Option Error) × Writer :=
  match w.script with
  | some (k, e) :: rest =>
    ((min k p.length, some e),
      { out := w.out ++ p.take k, script := rest, log := w.log ++ [p] })
  | none :: rest =>
    ((p.length, none), { out := w.out ++ p, script := rest, log := w.log ++ [p] })
  | [] =>
    ((p.length, none), { out := w.out ++ p, script := [], log := w.log ++ [p] })

/-- The loop of `io.ReadAtLeast`:
`for n < min && err == nil { nn, err = r.Read(buf[n:]); n += nn }`.
Returns `n`, `err`, the buffer and the reader at loop exit. -/
def ReadAtLeast.loop : Nat → Reader → List Byte → Nat → Nat → Option Error →
    Except Halt ((Nat × Option Error) × List Byte × Reader)
  | 0, r, buf, min, n, err =>
    if n < min ∧ err = none then .error Halt.outOfFuel else .ok ((n, err), buf, r)
  | fuel + 1, r, buf, min, n, err =>
    if n < min ∧ err = none then
      let res := r.Read (buf.drop n)
      ReadAtLeast.loop fuel res.2.2 (buf.take n ++ res.2.1) min (n + res.1.1) res.1.2
    else .ok ((n, err), buf, r)

/-- The library function `io.ReadAtLeast(r, buf, min)`. -/
def ReadAtLeast (fuel : Nat) (r : Reader) (buf : List Byte) (min : Nat) :
    Except Halt ((Nat × Option Error) × List Byte × Reader) :=
  if buf.length < min then .ok ((0, some Error.ErrShortBuffer), buf, r)
  else
    match ReadAtLeast.loop fuel r buf min 0 none with
    | .error h => .error h
    | .ok ((n, err), buf1, r1) =>
      if n ≥ min then .ok ((n, none), buf1, r1)
      else if n > 0 ∧ err = some Error.EOF then .ok ((n, some Error.ErrUnexpectedEOF), buf1, r1)
      else .ok ((n, err), buf1, r1)

/-- The library function `io.ReadFull(r, buf)`, which is
`ReadAtLeast(r, buf, len(buf))`. -/
def ReadFull (fuel : Nat) (r : Reader) (buf : List Byte) :
    Except Halt ((Nat × Option Error) × List Byte × Reader) :=
  ReadAtLeast fuel r buf buf.length

/-- The function `binary.BigEndian.Uint16(b)`: `uint16(b[1]) | uint16(b[0])<<8`
(the two operands of `|` have no bit in common, so it is their sum). -/
def BigEndian.Uint16 (b : List Byte) : Nat :=
  (b.getD 1 0).val + (b.getD 0 0).val * 2 ^ 8

/-- The function `binary.BigEndian.Uint32(b)`:
`uint32(b[3]) | uint32(b[2])<<8 | uint32(b[1])<<16 | uint32(b[0])<<24`. -/
def BigEndian.Uint32 (b : List Byte) : Nat :=
  (b.getD 3 0).val + (b.getD 2 0).val * 2 ^ 8 + (b.getD 1 0).val * 2 ^ 16
    + (b.getD 0 0).val * 2 ^ 24

/-- The function `binary.BigEndian.PutUint16(b, v)`:
`b[0] = byte(v >> 8); b[1] = byte(v)`. -/
def BigEndian.PutUint16 (b : List Byte) (v : Nat) : List Byte :=
  (b.set 0 (uint8 ((v / 2 ^ 8 : Nat) : Int))).set 1 (uint8 (v : Int))

/-- The function `binary.BigEndian.PutUint32(b, v)`:
`b[0] = byte(v >> 24); b[1] = byte(v >> 16); b[2] = byte(v >> 8); b[3] = byte(v)`. -/
def BigEndian.PutUint32 (b : List Byte) (v : Nat) : List Byte :=
  (((b.set 0 (uint8 ((v / 2 ^ 24 : Nat) : Int))).set 1 (uint8 ((v / 2 ^ 16 : Nat) : Int))).set 2
    (uint8 ((v / 2 ^ 8 : Nat) : Int))).set 3 (uint8 (v : Int))

/-- The struct `packetPort`. -/
structure packetPort where
  r : Reader
  w : Writer
  max : Nat
  sizeBuf : List Byte
  deriving DecidableEq, Repr

/-- The constructor `Packet(r, w, sizeLen)`: the port (or `nil`) and the error.
`max` is `(1 << uint32(sizeLen*8)) - 1` in `uint32` arithmetic: the shift and
the subtraction are both taken modulo `2 ^ 32`. -/
def Packet (r : Reader) (w : Writer) (sizeLen : Int) : Option packetPort × Option Error :=
  if sizeLen = 1 ∨ sizeLen = 2 ∨ sizeLen = 4 then
    (some { r := r
            w := w
            max := ((1 * 2 ^ uint32 (sizeLen * 8)) % 2 ^ 32 + 2 ^ 32 - 1) % 2 ^ 32
            sizeBuf := List.replicate sizeLen.toNat 0 }, none)
  else (none, some Error.ErrBadSizeLen)

/-- The method `readSize`: the declared size, the error, the port afterwards. -/
def packetPort.readSize (intSize fuel : Nat) (p : packetPort) :
    Except Halt ((Int × Option Error) × packetPort) :=
  match ReadFull fuel p.r p.sizeBuf with
  | .error h => .error h
  | .ok ((_, err), buf, r1) =>
    let p1 : packetPort := { p with r := r1, sizeBuf := buf }
    if err ≠ none then .ok ((0, err), p1)
    else if buf.length = 1 then .ok (((((buf.getD 0 0).val : Nat) : Int), none), p1)
    else if buf.length = 2 then .ok ((((BigEndian.Uint16 buf : Nat) : Int), none), p1)
    else if buf.length = 4 then
      let size32 := BigEndian.Uint32 buf
      let size := toInt intSize size32
      if uint32 size ≠ size32 then .ok ((0, some Error.ErrSizeOverflow), p1)
      else .ok ((size, none), p1)
    else .ok ((0, none), p1)

/-- The skipping loop of `Read`:
`for size > 0 && (err == nil || err == io.EOF) { n, err = p.r.Read(out); size -= n }`.
Returns the buffer and the reader at loop exit. -/
def packetPort.Read.skip : Nat → Reader → List Byte → Int → Option Error →
    Except Halt (List Byte × Reader)
  | 0, r, out, size, err =>
    if size > 0 ∧ (err = none ∨ err = some Error.EOF) then .error Halt.outOfFuel
    else .ok (out, r)
  | fuel + 1, r, out, size, err =>
    if size > 0 ∧ (err = none ∨ err = some Error.EOF) then
      let res := r.Read out
      packetPort.Read.skip fuel res.2.2 res.2.1 (size - (res.1.1 : Int)) res.1.2
    else .ok (out, r)

/-- The method `Read(out)`: `(n, err)`, the contents of `out` afterwards, the
port afterwards.  The slice expression `out[:size]` panics when `size < 0`. -/
def packetPort.Read (intSize fuel : Nat) (p : packetPort) (out : List Byte) :
    Except Halt ((Int × Option Error) × List Byte × packetPort) :=
  match p.readSize intSize fuel with
  | .error h => .error h
  | .ok ((size, err), p1) =>
    if err ≠ none then .ok ((0, err), out, p1)
    else if size = 0 then .ok ((0, none), out, p1)
    else if size > (out.length : Int) then
      match packetPort.Read.skip fuel p1.r out size err with
      | .error h => .error h
      | .ok (out1, r1) => .ok ((0, some Error.ErrTooBig), out1, { p1 with r := r1 })
    else if size < 0 then .error Halt.runtimePanic
    else
      match ReadFull fuel p1.r (out.take size.toNat) with
      | .error h => .error h
      | .ok ((n, e), seg, r1) =>
        .ok (((n : Int), e), seg ++ out.drop size.toNat, { p1 with r := r1 })

/-- The method `ReadOne()`: the data (`none` is the nil slice), the error, the
port afterwards.  `make([]byte, size)` panics when `size < 0`. -/
def packetPort.ReadOne (intSize fuel : Nat) (p : packetPort) :
    Except Halt ((Option (List Byte) × Option Error) × packetPort) :=
  match p.readSize intSize fuel with
  | .error h => .error h
  | .ok ((size, err), p1) =>
    if err ≠ none then .ok ((none, err), p1)
    else if size = 0 then .ok ((some [], none), p1)
    else if size < 0 then .error Halt.runtimePanic
    else
      match ReadFull fuel p1.r (List.replicate size.toNat 0) with
      | .error h => .error h
      | .ok ((n, e), data, r1) => .ok ((some (data.take n), e), { p1 with r := r1 })

/-- The method `Write(data)`: `(n, err)` and the port afterwards.  `size` is
`len(data)`, a non-negative `int`. -/
def packetPort.Write (intSize : Nat) (p : packetPort) (data : List Byte) :
    (Int × Option Error) × packetPort :=
  let size : Int := (data.length : Int)
  if uint32 size > p.max ∨ toInt intSize (uint32 size) ≠ size then
    ((0, some Error.ErrSizeOverflow), p)
  else
    let sizeBuf :=
      if p.sizeBuf.length = 1 then p.sizeBuf.set 0 (uint8 size)
      else if p.sizeBuf.length = 2 then BigEndian.PutUint16 p.sizeBuf (uint16 size)
      else if p.sizeBuf.length = 4 then BigEndian.PutUint32 p.sizeBuf (uint32 size)
      else p.sizeBuf
    let res := p.w.Write sizeBuf
    if res.1.2 ≠ none then ((0, res.1.2), { p with sizeBuf := sizeBuf, w := res.2 })
    else
      let res2 := res.2.Write data
      (((res2.1.1 : Int), res2.1.2), { p with sizeBuf := sizeBuf, w := res2.2 })

/-- The paired in-memory stream: everything the port has written so far is
moved to the end of what its reader will deliver. -/
def packetPort.deliver (p : packetPort) : packetPort :=
  { p with r := { p.r with data := p.r.data ++ p.w.out }, w := { p.w with out := [] } }

/-- An in-memory reader over `data` that hands out as much as is asked for. -/
def Reader.ofBytes (data : List Byte) : Reader := { data := data, chunks := [] }

/-- An in-memory writer that has accepted nothing yet and never fails. -/
def Writer.fresh : Writer := { out := [], script := [], log := [] }

/-- The big-endian unsigned encoding of `n` on `k` bytes, most significant
byte first (the wire format of the length, as the specification words it). -/
def bigEndian : Nat → Nat → List Byte
  | 0, _ => []
  | k + 1, n => uint8 ((n / 256 ^ k : Nat) : Int) :: bigEndian k n

/-- The port is configured for a size length of `sizeLen` bytes: what `Packet`
establishes, apart from the contents of the scratch buffer. -/
def Configured (sizeLen : Nat) (p : packetPort) : Prop :=
  (sizeLen = 1 ∨ sizeLen = 2 ∨ sizeLen = 4) ∧ p.sizeBuf.length = sizeLen ∧
    p.max = 2 ^ (8 * sizeLen) - 1

instance (sizeLen : Nat) (p : packetPort) : Decidable (Configured sizeLen p) := by
  unfold Configured; infer_instance

/-- The `switch len(p.sizeBuf)` of `Write`: the scratch buffer after the size has
been stored in it. -/
def packetPort.Write.putSize (sizeBuf : List Byte) (size : Int) : List Byte :=
  if sizeBuf.length = 1 then sizeBuf.set 0 (uint8 size)
  else if sizeBuf.length = 2 then BigEndian.PutUint16 sizeBuf (uint16 size)
  else if sizeBuf.length = 4 then BigEndian.PutUint32 sizeBuf (uint32 size)
  else sizeBuf

/-- The `switch len(p.sizeBuf)` of `readSize`: the size and the error read off the
filled scratch buffer. -/
def packetPort.readSize.getSize (intSize : Nat) (buf : List Byte) : Int × Option Error :=
  if buf.length = 1 then ((((buf.getD 0 0).val : Nat) : Int), none)
  else if buf.length = 2 then (((BigEndian.Uint16 buf : Nat) : Int), none)
  else if buf.length = 4 then
    let size32 := BigEndian.Uint32 buf
    let size := toInt intSize size32
    if uint32 size ≠ size32 then (0, some Error.ErrSizeOverflow)
    else (size, none)
  else (0, none)

/-- One call on a port: `Read(out)`, `ReadOne()` or `Write(data)`. -/
inductive Call where
  | Read (out : List Byte)
  | ReadOne
  | Write (data : List Byte)
  deriving DecidableEq, Repr

/-- The port after one call, when the call returns. -/
def packetPort.call (intSize fuel : Nat) (p : packetPort) : Call → Except Halt packetPort
  | Call.Read out =>
    match p.Read intSize fuel out with
    | .error h => .error h
    | .ok (_, _, p1) => .ok p1
  | Call.ReadOne =>
    match p.ReadOne intSize fuel with
    | .error h => .error h
    | .ok (_, p1) => .ok p1
  | Call.Write data => .ok (p.Write intSize data).2

/-- The port after a sequence of calls, when all of them return. -/
def packetPort.calls (intSize fuel : Nat) : packetPort → List Call → Except Halt packetPort
  | p, [] => .ok p
  | p, c :: cs =>
    match p.call intSize fuel c with
    | .error h => .error h
    | .ok p1 => packetPort.calls intSize fuel p1 cs

/-- One packet on the wire, as the specification words it: the size header followed
by the payload. -/
def frame (sizeLen : Nat) (payload : List Byte) : List Byte :=
  bigEndian sizeLen payload.length ++ payload

/-- The packets of a list of payloads on the wire, one after the other. -/
def frames (sizeLen : Nat) : List (List Byte) → List Byte
  | [] => []
  | d :: ds => frame sizeLen d ++ frames sizeLen ds

/-- The calls `Write(d)` for the payloads `d` of a list, in order: the results and
the port afterwards. -/
def packetPort.writeAll (intSize : Nat) :
    packetPort → List (List Byte) → List (Int × Option Error) × packetPort
  | p, [] => ([], p)
  | p, d :: ds =>
    ((p.Write intSize d).1 :: (packetPort.writeAll intSize (p.Write intSize d).2 ds).1,
      (packetPort.writeAll intSize (p.Write intSize d).2 ds).2)

/-- The call `ReadOne()` made `n` times in a row: the results and the port
afterwards. -/
def packetPort.readMany (intSize fuel : Nat) :
    Nat → packetPort → Except Halt (List (Option (List Byte) × Option Error) × packetPort)
  | 0, p => .ok ([], p)
  | n + 1, p =>
    match p.ReadOne intSize fuel with
    | .error h => .error h
    | .ok (res, p1) =>
      match packetPort.readMany intSize fuel n p1 with
      | .error h => .error h
      | .ok (rs, p2) => .ok (res :: rs, p2)

/-! ## The underlying reader and `io.ReadFull` -/

theorem Reader.Read_nil (r : Reader) : r.Read [] = ((0, none), [], r) := by
  simp [Reader.Read]

theorem Reader.Read_eof (r : Reader) (p : List Byte) (hp : p ≠ []) (hd : r.data = []) :
    r.Read p = ((0, some Error.EOF), p, r) := by
  have : p.length ≠ 0 := by simpa using hp
  simp [Reader.Read, this, hd]

theorem Reader.Read_some (r : Reader) (p : List Byte) (hp : p ≠ []) (hd : r.data ≠ []) :
    ∃ k, 1 ≤ k ∧ k ≤ p.length ∧ k ≤ r.data.length ∧
      r.Read p = ((k, none), r.data.take k ++ p.drop k,
        { data := r.data.drop k, chunks := r.chunks.tail }) := by
  have h1 : p.length ≠ 0 := by simpa using hp
  have h2 : r.data.length ≠ 0 := by simpa using hd
  refine ⟨min (min p.length r.data.length)
    (match r.chunks with
      | [] => p.length
      | c :: _ => c + 1), ?_, ?_, ?_, ?_⟩
  · cases r.chunks <;> simp <;> omega
  · cases r.chunks <;> simp
  · cases r.chunks <;> simp
  · simp [Reader.Read, h1, h2]

theorem ReadAtLeast.loop_full (fuel : Nat) : ∀ (r : Reader) (buf : List Byte) (m n : Nat),
    buf.length = m → n ≤ m → m - n ≤ r.data.length → m - n ≤ fuel →
    ∃ cs, ReadAtLeast.loop fuel r buf m n none =
      .ok ((m, none), buf.take n ++ r.data.take (m - n),
        { data := r.data.drop (m - n), chunks := cs }) := by
  induction fuel with
  | zero =>
    intro r buf m n hb hn hd hf
    have hnm : n = m := by omega
    subst hnm
    refine ⟨r.chunks, ?_⟩
    simp [ReadAtLeast.loop, ← hb]
  | succ fuel ih =>
    intro r buf m n hb hn hd hf
    by_cases hnm : n = m
    · subst hnm
      refine ⟨r.chunks, ?_⟩
      simp [ReadAtLeast.loop, ← hb]
    · have hlt : n < m := by omega
      have hp : buf.drop n ≠ [] := by
        intro h
        have := congrArg List.length h
        simp at this; omega
      have hdne : r.data ≠ [] := by
        intro h
        simp [h] at hd; omega
      obtain ⟨k, hk1, hk2, hk3, hrd⟩ := Reader.Read_some r (buf.drop n) hp hdne
      simp only [List.length_drop] at hk2
      have hstep : ReadAtLeast.loop (fuel + 1) r buf m n none =
          ReadAtLeast.loop fuel { data := r.data.drop k, chunks := r.chunks.tail }
            (buf.take n ++ (r.data.take k ++ (buf.drop n).drop k)) m (n + k) none := by
        simp [ReadAtLeast.loop, hlt, hrd]
      obtain ⟨cs, hcs⟩ := ih { data := r.data.drop k, chunks := r.chunks.tail }
        (buf.take n ++ (r.data.take k ++ (buf.drop n).drop k)) m (n + k)
        (by simp; omega) (by omega) (by simp; omega) (by omega)
      refine ⟨cs, ?_⟩
      rw [hstep, hcs]
      have e1 : m - n = k + (m - (n + k)) := by omega
      have e2 : (buf.take n ++ (r.data.take k ++ (buf.drop n).drop k)).take (n + k)
          = buf.take n ++ r.data.take k := by
        rw [← List.append_assoc]
        apply List.take_left'
        simp; omega
      have e3 : r.data.take (m - n) = r.data.take k ++ (r.data.drop k).take (m - (n + k)) := by
        rw [e1, List.take_add]
      have e4 : (r.data.drop k).drop (m - (n + k)) = r.data.drop (m - n) := by
        rw [List.drop_drop]; congr 1; omega
      dsimp only
      rw [e2, e3, e4, List.append_assoc]

theorem ReadAtLeast.loop_short (fuel : Nat) : ∀ (r : Reader) (buf : List Byte) (m n : Nat),
    buf.length = m → r.data.length < m - n → r.data.length < fuel →
    ∃ cs, ReadAtLeast.loop fuel r buf m n none =
      .ok ((n + r.data.length, some Error.EOF),
        buf.take n ++ r.data ++ buf.drop (n + r.data.length),
        { data := [], chunks := cs }) := by
  induction fuel with
  | zero => intro r buf m n hb hd hf; omega
  | succ fuel ih =>
    intro r buf m n hb hd hf
    have hlt : n < m := by omega
    have hp : buf.drop n ≠ [] := by
      intro h
      have := congrArg List.length h
      simp at this; omega
    by_cases hdne : r.data = []
    · have hrd := Reader.Read_eof r (buf.drop n) hp hdne
      refine ⟨r.chunks, ?_⟩
      have hr : r = { data := [], chunks := r.chunks } := by
        cases r; simp_all
      cases fuel <;>
        simp [ReadAtLeast.loop, hlt, hrd, hdne] <;> exact hr
    · obtain ⟨k, hk1, hk2, hk3, hrd⟩ := Reader.Read_some r (buf.drop n) hp hdne
      simp only [List.length_drop] at hk2
      have hstep : ReadAtLeast.loop (fuel + 1) r buf m n none =
          ReadAtLeast.loop fuel { data := r.data.drop k, chunks := r.chunks.tail }
            (buf.take n ++ (r.data.take k ++ (buf.drop n).drop k)) m (n + k) none := by
        simp [ReadAtLeast.loop, hlt, hrd]
      obtain ⟨cs, hcs⟩ := ih { data := r.data.drop k, chunks := r.chunks.tail }
        (buf.take n ++ (r.data.take k ++ (buf.drop n).drop k)) m (n + k)
        (by simp; omega) (by simp; omega) (by simp; omega)
      refine ⟨cs, ?_⟩
      rw [hstep, hcs]
      have e2 : (buf.take n ++ (r.data.take k ++ (buf.drop n).drop k)).take (n + k)
          = buf.take n ++ r.data.take k := by
        rw [← List.append_assoc]
        apply List.take_left'
        simp; omega
      have e3 : (buf.take n ++ (r.data.take k ++ (buf.drop n).drop k)).drop
          (n + k + (r.data.drop k).length) = buf.drop (n + r.data.length) := by
        rw [← List.append_assoc, ← List.drop_drop]
        rw [List.drop_left' (by simp; omega)]
        simp only [List.drop_drop, List.length_drop]
        congr 1; omega
      have e4 : n + k + (r.data.drop k).length = n + r.data.length := by
        simp; omega
      dsimp only
      rw [e2, e3, e4, List.append_assoc (buf.take n), List.take_append_drop]

theorem ReadFull_full (fuel : Nat) (r : Reader) (buf : List Byte)
    (hd : buf.length ≤ r.data.length) (hf : buf.length ≤ fuel) :
    ∃ cs, ReadFull fuel r buf =
      .ok ((buf.length, none), r.data.take buf.length,
        { data := r.data.drop buf.length, chunks := cs }) := by
  obtain ⟨cs, h⟩ := ReadAtLeast.loop_full fuel r buf buf.length 0 rfl (Nat.zero_le _)
    (by simpa using hd) (by simpa using hf)
  refine ⟨cs, ?_⟩
  simp [ReadFull, ReadAtLeast, h]

theorem ReadFull_short (fuel : Nat) (r : Reader) (buf : List Byte)
    (hd : r.data.length < buf.length) (hf : r.data.length < fuel) :
    ∃ cs, ReadFull fuel r buf =
      .ok ((r.data.length,
          some (if r.data.length = 0 then Error.EOF else Error.ErrUnexpectedEOF)),
        r.data ++ buf.drop r.data.length, { data := [], chunks := cs }) := by
  obtain ⟨cs, h⟩ := ReadAtLeast.loop_short fuel r buf buf.length 0 rfl
    (by simpa using hd) hf
  refine ⟨cs, ?_⟩
  have h1 : ¬ buf.length ≤ r.data.length := by omega
  by_cases h0 : r.data.length = 0
  · have h2 : buf ≠ [] := by
      intro hb; simp [hb] at hd
    simp [ReadFull, ReadAtLeast, h, h0, h2]
  · have h2 : 0 < r.data.length := by omega
    simp [ReadFull, ReadAtLeast, h, h0, h1, h2]

/-! ## Integer conversions and the size header codec -/

theorem uint8_val (n : Nat) : (uint8 (n : Int)).val = n % 256 := by
  simp only [uint8]
  omega

theorem uint16_of_lt (n : Nat) (h : n < 2 ^ 16) : uint16 (n : Int) = n := by
  simp only [uint16]
  omega

theorem uint32_of_lt (n : Nat) (h : n < 2 ^ 32) : uint32 (n : Int) = n := by
  simp only [uint32]
  omega

theorem uint32_natCast (n : Nat) : uint32 (n : Int) = n % 2 ^ 32 := by
  simp only [uint32]
  omega

theorem toInt_of_lt (intSize v : Nat) (h : intSize = 32 ∨ intSize = 64)
    (hv : v < 2 ^ (intSize - 1)) : toInt intSize v = (v : Int) := by
  rcases h with h | h
  · subst h
    have hv2 : v < 2147483648 := by norm_num at hv; exact hv
    have hm : v % 2 ^ 32 = v := Nat.mod_eq_of_lt (by norm_num; omega)
    simp only [toInt, hm]
    norm_num
    exact hv2
  · subst h
    have hv2 : v < 9223372036854775808 := by norm_num at hv; exact hv
    have hm : v % 2 ^ 64 = v := Nat.mod_eq_of_lt (by norm_num; omega)
    simp only [toInt, hm]
    norm_num
    exact hv2

theorem bigEndian_one (n : Nat) : bigEndian 1 n = [uint8 (n : Int)] := by
  simp [bigEndian]

theorem bigEndian_two (n : Nat) :
    bigEndian 2 n = [uint8 ((n / 2 ^ 8 : Nat) : Int), uint8 (n : Int)] := by
  simp [bigEndian]

theorem bigEndian_four (n : Nat) :
    bigEndian 4 n = [uint8 ((n / 2 ^ 24 : Nat) : Int), uint8 ((n / 2 ^ 16 : Nat) : Int),
      uint8 ((n / 2 ^ 8 : Nat) : Int), uint8 (n : Int)] := by
  simp [bigEndian]

theorem bigEndian_length (k n : Nat) : (bigEndian k n).length = k := by
  induction k with
  | zero => simp [bigEndian]
  | succ k ih => simp [bigEndian, ih]

theorem Uint16_bigEndian (n : Nat) (h : n < 2 ^ 16) : BigEndian.Uint16 (bigEndian 2 n) = n := by
  simp only [bigEndian_two, BigEndian.Uint16, List.getD_cons_zero, List.getD_cons_succ, uint8_val]
  omega

theorem Uint32_bigEndian (n : Nat) (h : n < 2 ^ 32) : BigEndian.Uint32 (bigEndian 4 n) = n := by
  simp only [bigEndian_four, BigEndian.Uint32, List.getD_cons_zero, List.getD_cons_succ, uint8_val]
  omega

/-! ## `readSize` and `Write` on a configured port -/

theorem readSize_header (intSize fuel sizeLen L : Nat) (p : packetPort) (rest : List Byte)
    (hk : sizeLen = 1 ∨ sizeLen = 2 ∨ sizeLen = 4) (hbuf : p.sizeBuf.length = sizeLen)
    (hdata : p.r.data = bigEndian sizeLen L ++ rest) (hL : L ≤ 2 ^ (8 * sizeLen) - 1)
    (hint : intSize = 32 ∨ intSize = 64) (hfit : L < 2 ^ (intSize - 1))
    (hf : sizeLen ≤ fuel) :
    ∃ cs, p.readSize intSize fuel =
      .ok ((((L : Nat) : Int), none),
        { p with r := { data := rest, chunks := cs }, sizeBuf := bigEndian sizeLen L }) := by
  obtain ⟨cs, h⟩ := ReadFull_full fuel p.r p.sizeBuf
    (by rw [hdata, hbuf]; simp [bigEndian_length]) (by omega)
  have ht : p.r.data.take p.sizeBuf.length = bigEndian sizeLen L := by
    rw [hdata, hbuf]
    exact List.take_left' (bigEndian_length _ _)
  have hd : p.r.data.drop p.sizeBuf.length = rest := by
    rw [hdata, hbuf]
    exact List.drop_left' (bigEndian_length _ _)
  rw [ht, hd] at h
  refine ⟨cs, ?_⟩
  rcases hk with hk | hk | hk <;> subst hk
  · have hL2 : L < 256 := by norm_num at hL; omega
    have hv : L % 256 = L := Nat.mod_eq_of_lt hL2
    simp [packetPort.readSize, h, bigEndian_length]
    simp [bigEndian_one, uint8_val, hv]
  · have hL2 : L < 2 ^ 16 := by norm_num at hL ⊢; omega
    simp [packetPort.readSize, h, bigEndian_length, Uint16_bigEndian L hL2]
  · have hL2 : L < 2 ^ 32 := by norm_num at hL ⊢; omega
    simp [packetPort.readSize, h, bigEndian_length, Uint32_bigEndian L hL2,
      toInt_of_lt intSize L hint hfit, uint32_of_lt L hL2]

theorem Writer.Write_accept (w : Writer) (p : List Byte)
    (h : ∀ x ∈ w.script.take 1, x = none) :
    w.Write p = ((p.length, none),
      { out := w.out ++ p, script := w.script.tail, log := w.log ++ [p] }) := by
  cases hs : w.script with
  | nil => simp [Writer.Write, hs]
  | cons a rest =>
    have : a = none := h a (by simp [hs])
    subst this
    simp [Writer.Write, hs]

theorem Write_guard (intSize sizeLen : Nat) (p : packetPort) (data : List Byte)
    (hc : Configured sizeLen p) (hL : data.length ≤ 2 ^ (8 * sizeLen) - 1)
    (hint : intSize = 32 ∨ intSize = 64) (hfit : data.length < 2 ^ (intSize - 1)) :
    ¬ (uint32 (data.length : Int) > p.max ∨
      toInt intSize (uint32 (data.length : Int)) ≠ (data.length : Int)) := by
  obtain ⟨hk, hbuf, hmax⟩ := hc
  have h32 : data.length < 2 ^ 32 := by
    rcases hk with hk | hk | hk <;> subst hk <;> norm_num at hL ⊢ <;> omega
  rw [uint32_of_lt _ h32, toInt_of_lt intSize _ hint hfit, hmax]
  omega

theorem Write_sizeBuf (sizeLen n : Nat) (buf : List Byte)
    (hk : sizeLen = 1 ∨ sizeLen = 2 ∨ sizeLen = 4) (hbuf : buf.length = sizeLen)
    (hL : n ≤ 2 ^ (8 * sizeLen) - 1) :
    (if buf.length = 1 then buf.set 0 (uint8 (n : Int))
      else if buf.length = 2 then BigEndian.PutUint16 buf (uint16 (n : Int))
      else if buf.length = 4 then BigEndian.PutUint32 buf (uint32 (n : Int))
      else buf) = bigEndian sizeLen n := by
  rcases hk with hk | hk | hk <;> subst hk
  · match buf, hbuf with
    | [a], _ => simp [bigEndian_one]
  · have hL2 : n < 2 ^ 16 := by norm_num at hL ⊢; omega
    match buf, hbuf with
    | [a, b], _ => simp [bigEndian_two, BigEndian.PutUint16, uint16_of_lt n hL2]
  · have hL2 : n < 2 ^ 32 := by norm_num at hL ⊢; omega
    match buf, hbuf with
    | [a, b, c, d], _ => simp [bigEndian_four, BigEndian.PutUint32, uint32_of_lt n hL2]

theorem Write_accepted (intSize sizeLen : Nat) (p : packetPort) (data : List Byte)
    (hc : Configured sizeLen p) (hL : data.length ≤ 2 ^ (8 * sizeLen) - 1)
    (hint : intSize = 32 ∨ intSize = 64) (hfit : data.length < 2 ^ (intSize - 1))
    (hw : ∀ x ∈ p.w.script.take 2, x = none) :
    p.Write intSize data = (((data.length : Int), none),
      { p with
        sizeBuf := bigEndian sizeLen data.length
        w := { out := p.w.out ++ bigEndian sizeLen data.length ++ data
               script := p.w.script.drop 2
               log := p.w.log ++ [bigEndian sizeLen data.length, data] } }) := by
  have hg := Write_guard intSize sizeLen p data hc hL hint hfit
  have hsb := Write_sizeBuf sizeLen data.length p.sizeBuf hc.1 hc.2.1 hL
  have h1 : ∀ x ∈ p.w.script.take 1, x = none := by
    intro x hx
    apply hw x
    exact List.take_subset_take_left _ (by omega) hx
  have h2 : ∀ x ∈ p.w.script.tail.take 1, x = none := by
    intro x hx
    apply hw x
    cases hs : p.w.script with
    | nil => simp [hs] at hx
    | cons a rest =>
      simp only [hs, List.tail_cons] at hx
      have : x ∈ rest.take 1 := hx
      simp only [List.take_succ_cons, List.mem_cons]
      right; exact hx
  simp only [packetPort.Write, hg, if_false, hsb]
  rw [Writer.Write_accept p.w _ h1]
  simp only [ne_eq, not_true_eq_false, if_false]
  rw [Writer.Write_accept _ _ h2]
  have ht : p.w.script.tail.tail = p.w.script.drop 2 := by
    rcases p.w.script with _ | ⟨a, _ | ⟨b, l⟩⟩ <;> simp
  simp [ht]

/-! ## `Packet`, `ReadOne` and `Read` on a complete packet -/

theorem Packet_eq (r : Reader) (w : Writer) (sizeLen : Nat)
    (hk : sizeLen = 1 ∨ sizeLen = 2 ∨ sizeLen = 4) :
    Packet r w (sizeLen : Int) =
      (some { r := r, w := w, max := 2 ^ (8 * sizeLen) - 1,
              sizeBuf := List.replicate sizeLen 0 }, none) := by
  rcases hk with hk | hk | hk <;> subst hk <;> simp [Packet, uint32]

theorem Packet_configured (r : Reader) (w : Writer) (sizeLen : Nat) (p : packetPort)
    (hk : sizeLen = 1 ∨ sizeLen = 2 ∨ sizeLen = 4)
    (hp : Packet r w (sizeLen : Int) = (some p, none)) :
    Configured sizeLen p ∧ p.r = r ∧ p.w = w := by
  rw [Packet_eq r w sizeLen hk] at hp
  simp only [Prod.mk.injEq, Option.some.injEq, and_true] at hp
  subst hp
  exact ⟨⟨hk, by simp, rfl⟩, rfl, rfl⟩

theorem ReadOne_packet (intSize fuel sizeLen : Nat) (p : packetPort)
    (payload rest : List Byte)
    (hk : sizeLen = 1 ∨ sizeLen = 2 ∨ sizeLen = 4) (hbuf : p.sizeBuf.length = sizeLen)
    (hdata : p.r.data = bigEndian sizeLen payload.length ++ payload ++ rest)
    (hL : payload.length ≤ 2 ^ (8 * sizeLen) - 1)
    (hint : intSize = 32 ∨ intSize = 64) (hfit : payload.length < 2 ^ (intSize - 1))
    (hf : sizeLen + payload.length ≤ fuel) :
    ∃ cs, p.ReadOne intSize fuel =
      .ok ((some payload, none),
        { p with r := { data := rest, chunks := cs },
                 sizeBuf := bigEndian sizeLen payload.length }) := by
  obtain ⟨cs, h⟩ := readSize_header intSize fuel sizeLen payload.length p (payload ++ rest)
    hk hbuf (by rw [hdata, List.append_assoc]) hL hint hfit (by omega)
  by_cases h0 : payload.length = 0
  · refine ⟨cs, ?_⟩
    have hp0 : payload = [] := List.eq_nil_of_length_eq_zero h0
    subst hp0
    simp [packetPort.ReadOne, h]
  · obtain ⟨cs2, h2⟩ := ReadFull_full fuel { data := payload ++ rest, chunks := cs }
      (List.replicate payload.length 0) (by simp) (by simp; omega)
    refine ⟨cs2, ?_⟩
    simp at h2
    simp [packetPort.ReadOne, h, h0, h2]

theorem Read_packet (intSize fuel sizeLen : Nat) (p : packetPort)
    (payload rest out : List Byte)
    (hk : sizeLen = 1 ∨ sizeLen = 2 ∨ sizeLen = 4) (hbuf : p.sizeBuf.length = sizeLen)
    (hdata : p.r.data = bigEndian sizeLen payload.length ++ payload ++ rest)
    (hL : payload.length ≤ 2 ^ (8 * sizeLen) - 1)
    (hint : intSize = 32 ∨ intSize = 64) (hfit : payload.length < 2 ^ (intSize - 1))
    (hout : payload.length ≤ out.length)
    (hf : sizeLen + payload.length ≤ fuel) :
    ∃ cs, p.Read intSize fuel out =
      .ok (((payload.length : Int), none), payload ++ out.drop payload.length,
        { p with r := { data := rest, chunks := cs },
                 sizeBuf := bigEndian sizeLen payload.length }) := by
  obtain ⟨cs, h⟩ := readSize_header intSize fuel sizeLen payload.length p (payload ++ rest)
    hk hbuf (by rw [hdata, List.append_assoc]) hL hint hfit (by omega)
  by_cases h0 : payload.length = 0
  · refine ⟨cs, ?_⟩
    have hp0 : payload = [] := List.eq_nil_of_length_eq_zero h0
    subst hp0
    simp [packetPort.Read, h]
  · obtain ⟨cs2, h2⟩ := ReadFull_full fuel { data := payload ++ rest, chunks := cs }
      (out.take payload.length) (by simp) (by simp; omega)
    refine ⟨cs2, ?_⟩
    have hm : min payload.length out.length = payload.length := by omega
    simp [hm] at h2
    have hng : ¬ ((out.length : Int) < (payload.length : Int)) := by omega
    simp [packetPort.Read, h, h0, h2, hng]


/-! ## Round trip and wire format -/

/-- C1 (round trip): on a port built by `Packet` for a size length of 1, 2 or 4 bytes
whose input stream is empty and is fed what the port writes, `Write(payload)` with
`len(payload) ≤ 2^(8*sizeLen) - 1` returns `(len(payload), nil)` and the following
`ReadOne()` returns `(payload, nil)`, however the reader splits its reads. -/
theorem C1_round_trip (intSize fuel sizeLen : Nat) (r : Reader) (w : Writer) (p : packetPort)
    (payload : List Byte)
    (hint : intSize = 32 ∨ intSize = 64)
    (hk : sizeLen = 1 ∨ sizeLen = 2 ∨ sizeLen = 4)
    (hp : Packet r w (sizeLen : Int) = (some p, none))
    (hr : r.data = []) (hw : w.out = []) (hs : ∀ x ∈ w.script.take 2, x = none)
    (hlen : payload.length ≤ 2 ^ (8 * sizeLen) - 1)
    (hfit : payload.length < 2 ^ (intSize - 1))
    (hf : sizeLen + payload.length ≤ fuel) :
    ∃ p1 p2, p.Write intSize payload = (((payload.length : Int), none), p1) ∧
      p1.deliver.ReadOne intSize fuel = .ok ((some payload, none), p2) ∧
      p2.r.data = [] := by
  obtain ⟨hc, hpr, hpw⟩ := Packet_configured r w sizeLen p hk hp
  have hW := Write_accepted intSize sizeLen p payload hc hlen hint hfit (by rw [hpw]; exact hs)
  obtain ⟨cs, hR⟩ := ReadOne_packet intSize fuel sizeLen
    (packetPort.deliver { p with
        sizeBuf := bigEndian sizeLen payload.length
        w := { out := p.w.out ++ bigEndian sizeLen payload.length ++ payload
               script := p.w.script.drop 2
               log := p.w.log ++ [bigEndian sizeLen payload.length, payload] } })
    payload [] hk (by simp [packetPort.deliver, bigEndian_length])
    (by simp [packetPort.deliver, hpr, hpw, hr, hw]) hlen hint hfit hf
  exact ⟨_, _, hW, hR, rfl⟩

/-- Witness of C1: a two-byte size length, the payload `[1, 2, 3]`. -/
theorem C1_round_trip_witness :
    ∃ p1 p2, packetPort.Write 64
        { r := Reader.ofBytes [], w := Writer.fresh, max := 65535, sizeBuf := [0, 0] }
        [1, 2, 3] = ((((([1, 2, 3] : List Byte).length : Nat) : Int), none), p1) ∧
      p1.deliver.ReadOne 64 5 = .ok ((some [1, 2, 3], none), p2) ∧ p2.r.data = [] :=
  C1_round_trip 64 5 2 (Reader.ofBytes []) Writer.fresh _ [1, 2, 3] (Or.inr rfl)
    (Or.inr (Or.inl rfl)) (by decide) rfl rfl (by simp [Writer.fresh]) (by decide) (by decide)
    (by decide)

/-- C2 (wire format): on a port configured for a size length of 1, 2 or 4 bytes, a
`Write(payload)` with `len(payload) ≤ max` whose two underlying writes succeed
returns `(len(payload), nil)`, appends to the output exactly the big-endian encoding
of `len(payload)` on `sizeLen` bytes followed by the payload, and makes exactly those
two calls of the underlying writer. -/
theorem C2_wire_format (intSize sizeLen : Nat) (p : packetPort) (payload : List Byte)
    (hint : intSize = 32 ∨ intSize = 64)
    (hc : Configured sizeLen p)
    (hs : ∀ x ∈ p.w.script.take 2, x = none)
    (hlen : payload.length ≤ p.max)
    (hfit : payload.length < 2 ^ (intSize - 1)) :
    (p.Write intSize payload).1 = ((payload.length : Int), none) ∧
      (p.Write intSize payload).2.w.out =
        p.w.out ++ (bigEndian sizeLen payload.length ++ payload) ∧
      (p.Write intSize payload).2.w.log =
        p.w.log ++ [bigEndian sizeLen payload.length, payload] := by
  have hW := Write_accepted intSize sizeLen p payload hc (by rw [← hc.2.2]; exact hlen)
    hint hfit hs
  rw [hW]
  simp

/-- Witness of C2: a four-byte size length, the payload `[7, 8]`. -/
theorem C2_wire_format_witness :
    (packetPort.Write 64
        { r := Reader.ofBytes [], w := Writer.fresh, max := 4294967295, sizeBuf := [9, 9, 9, 9] }
        [7, 8]).1 = (((([7, 8] : List Byte).length : Nat) : Int), none) ∧
      (packetPort.Write 64
        { r := Reader.ofBytes [], w := Writer.fresh, max := 4294967295, sizeBuf := [9, 9, 9, 9] }
        [7, 8]).2.w.out = Writer.fresh.out ++ (bigEndian 4 ([7, 8] : List Byte).length ++ [7, 8]) ∧
      (packetPort.Write 64
        { r := Reader.ofBytes [], w := Writer.fresh, max := 4294967295, sizeBuf := [9, 9, 9, 9] }
        [7, 8]).2.w.log = Writer.fresh.log ++ [bigEndian 4 ([7, 8] : List Byte).length, [7, 8]] :=
  C2_wire_format 64 4
    { r := Reader.ofBytes [], w := Writer.fresh, max := 4294967295, sizeBuf := [9, 9, 9, 9] }
    [7, 8] (Or.inr rfl) (by decide) (by simp [Writer.fresh]) (by decide) (by decide)


/-! ## Rejected writes -/

theorem Writer.Write_err (w : Writer) (p : List Byte) (e : Error)
    (h : (w.Write p).1.2 = some e) : ∃ k, some (k, e) ∈ w.script.take 1 := by
  rcases hs : w.script with _ | ⟨a, rest⟩
  · simp [Writer.Write, hs] at h
  · rcases a with _ | ⟨k, e2⟩
    · simp [Writer.Write, hs] at h
    · simp [Writer.Write, hs] at h
      exact ⟨k, by simp [h]⟩

theorem Writer.Write_script (w : Writer) (p : List Byte) :
    (w.Write p).2.script = w.script.tail := by
  rcases hs : w.script with _ | ⟨a, rest⟩
  · simp [Writer.Write, hs]
  · rcases a with _ | ⟨k, e2⟩ <;> simp [Writer.Write, hs]

theorem Write_guard64 (sizeLen : Nat) (p : packetPort) (data : List Byte)
    (hc : Configured sizeLen p) :
    (uint32 (data.length : Int) > p.max ∨
      toInt 64 (uint32 (data.length : Int)) ≠ (data.length : Int)) ↔
      data.length > 2 ^ (8 * sizeLen) - 1 := by
  obtain ⟨hk, hbuf, hmax⟩ := hc
  have hlt : data.length % 2 ^ 32 < 2 ^ (64 - 1) := by
    have := Nat.mod_lt data.length (show 2 ^ 32 > 0 by norm_num)
    norm_num at this ⊢; omega
  rw [uint32_natCast, toInt_of_lt 64 _ (Or.inr rfl) hlt, hmax]
  rcases hk with hk | hk | hk <;> subst hk <;> norm_num <;> omega

/-- C5 (oversize write rejected): with a 64-bit `int`, on a port configured for a size
length of 1, 2 or 4 bytes whose underlying writer does not itself fail with
`ErrSizeOverflow`, `Write(payload)` returns `(0, ErrSizeOverflow)` exactly when
`len(payload) > 2^(8*sizeLen) - 1`, and then the port and its writer are left as they
were: no call of the underlying writer, no byte written. -/
theorem C5_oversize_write (sizeLen : Nat) (p : packetPort) (payload : List Byte)
    (hc : Configured sizeLen p)
    (hw : ∀ k, some (k, Error.ErrSizeOverflow) ∉ p.w.script.take 2) :
    ((p.Write 64 payload).1 = (0, some Error.ErrSizeOverflow) ↔
        payload.length > 2 ^ (8 * sizeLen) - 1) ∧
      (payload.length > 2 ^ (8 * sizeLen) - 1 → (p.Write 64 payload).2 = p) := by
  have hg := Write_guard64 sizeLen p payload hc
  constructor
  · constructor
    · intro h
      by_contra hn
      have hg2 : ¬ (uint32 (payload.length : Int) > p.max ∨
          toInt 64 (uint32 (payload.length : Int)) ≠ (payload.length : Int)) := by
        rw [hg]; exact hn
      simp only [packetPort.Write, hg2, if_false,
        Write_sizeBuf sizeLen payload.length p.sizeBuf hc.1 hc.2.1 (by omega)] at h
      by_cases he : (p.w.Write (bigEndian sizeLen payload.length)).1.2 = none
      · simp only [he, ne_eq, not_true_eq_false, if_false, Prod.mk.injEq] at h
        obtain ⟨k, hk⟩ := Writer.Write_err _ _ _ h.2
        rw [Writer.Write_script] at hk
        apply hw k
        rcases hs : p.w.script with _ | ⟨a, rest⟩
        · simp [hs] at hk
        · simp only [hs, List.tail_cons] at hk
          simp only [List.take_succ_cons, List.mem_cons]
          right; exact hk
      · simp only [ne_eq, he, not_false_eq_true, if_true, Prod.mk.injEq, true_and] at h
        obtain ⟨k, hk⟩ := Writer.Write_err _ _ _ h
        exact hw k (List.take_subset_take_left _ (by omega) hk)
    · intro h
      have hg2 := hg.2 h
      simp only [packetPort.Write, hg2, if_true]
  · intro h
    have hg2 := hg.2 h
    simp only [packetPort.Write, hg2, if_true]

/-- Witness of C5: a one-byte size length and a 256-byte payload. -/
theorem C5_oversize_write_witness :
    ((packetPort.Write 64
          { r := Reader.ofBytes [], w := Writer.fresh, max := 255, sizeBuf := [0] }
          (List.replicate 256 0)).1 = (0, some Error.ErrSizeOverflow) ↔
        (List.replicate 256 (0 : Byte)).length > 2 ^ (8 * 1) - 1) ∧
      ((List.replicate 256 (0 : Byte)).length > 2 ^ (8 * 1) - 1 →
        (packetPort.Write 64
          { r := Reader.ofBytes [], w := Writer.fresh, max := 255, sizeBuf := [0] }
          (List.replicate 256 0)).2 =
          { r := Reader.ofBytes [], w := Writer.fresh, max := 255, sizeBuf := [0] }) :=
  C5_oversize_write 1
    { r := Reader.ofBytes [], w := Writer.fresh, max := 255, sizeBuf := [0] }
    (List.replicate 256 0) (by decide) (by simp [Writer.fresh])


/-! ## Short headers, construction, reads that fit -/

theorem readSize_short (intSize fuel : Nat) (p : packetPort)
    (hd : p.r.data.length < p.sizeBuf.length) (hf : p.r.data.length < fuel) :
    ∃ cs, p.readSize intSize fuel =
      .ok ((0, some (if p.r.data.length = 0 then Error.EOF else Error.ErrUnexpectedEOF)),
        { p with r := { data := [], chunks := cs },
                 sizeBuf := p.r.data ++ p.sizeBuf.drop p.r.data.length }) := by
  obtain ⟨cs, h⟩ := ReadFull_short fuel p.r p.sizeBuf hd hf
  refine ⟨cs, ?_⟩
  simp [packetPort.readSize, h]

/-- C6 (partial size header): on a port whose scratch buffer has 1, 2 or 4 bytes, when
the input stream ends after `k < sizeLen` bytes, `Read(out)` returns `(0, err)` and
`ReadOne()` returns `(nil, err)` where `err` is `io.EOF` if `k = 0` and
`io.ErrUnexpectedEOF` if `0 < k`; `out` is left as it was and no zero-length message
is reported. -/
theorem C6_partial_header (intSize fuel sizeLen : Nat) (p : packetPort) (out : List Byte)
    (hk : sizeLen = 1 ∨ sizeLen = 2 ∨ sizeLen = 4) (hbuf : p.sizeBuf.length = sizeLen)
    (hd : p.r.data.length < sizeLen) (hf : p.r.data.length < fuel) :
    (∃ p1, p.Read intSize fuel out =
        .ok ((0, some (if p.r.data.length = 0 then Error.EOF else Error.ErrUnexpectedEOF)),
          out, p1)) ∧
      (∃ p2, p.ReadOne intSize fuel =
        .ok ((none, some (if p.r.data.length = 0 then Error.EOF else Error.ErrUnexpectedEOF)),
          p2)) := by
  obtain ⟨cs, h⟩ := readSize_short intSize fuel p (by omega) hf
  constructor
  · refine ⟨{ p with r := { data := [], chunks := cs },
                     sizeBuf := p.r.data ++ p.sizeBuf.drop p.r.data.length }, ?_⟩
    simp [packetPort.Read, h]
  · refine ⟨{ p with r := { data := [], chunks := cs },
                     sizeBuf := p.r.data ++ p.sizeBuf.drop p.r.data.length }, ?_⟩
    simp [packetPort.ReadOne, h]

/-- Witness of C6: one byte of a four-byte size header, then end of stream. -/
theorem C6_partial_header_witness :
    (∃ p1, packetPort.Read 64 2
        { r := Reader.ofBytes [5], w := Writer.fresh, max := 4294967295, sizeBuf := [0, 0, 0, 0] }
        [1, 2] =
        .ok ((0, some (if (Reader.ofBytes [5]).data.length = 0 then Error.EOF
          else Error.ErrUnexpectedEOF)), [1, 2], p1)) ∧
      (∃ p2, packetPort.ReadOne 64 2
        { r := Reader.ofBytes [5], w := Writer.fresh, max := 4294967295, sizeBuf := [0, 0, 0, 0] } =
        .ok ((none, some (if (Reader.ofBytes [5]).data.length = 0 then Error.EOF
          else Error.ErrUnexpectedEOF)), p2)) :=
  C6_partial_header 64 2 4
    { r := Reader.ofBytes [5], w := Writer.fresh, max := 4294967295, sizeBuf := [0, 0, 0, 0] }
    [1, 2] (by decide) rfl (by decide) (by decide)

/-- C7 (construction): `Packet(r, w, sizeLen)` returns `(nil, ErrBadSizeLen)` exactly
when `sizeLen` is none of 1, 2, 4; otherwise it returns a port with a nil error that
wraps `r` and `w` and whose scratch buffer has exactly `sizeLen` bytes. -/
theorem C7_construction (r : Reader) (w : Writer) (sizeLen : Int) :
    (Packet r w sizeLen = (none, some Error.ErrBadSizeLen) ↔
        ¬ (sizeLen = 1 ∨ sizeLen = 2 ∨ sizeLen = 4)) ∧
      ((sizeLen = 1 ∨ sizeLen = 2 ∨ sizeLen = 4) →
        ∃ p, Packet r w sizeLen = (some p, none) ∧ p.r = r ∧ p.w = w ∧
          (p.sizeBuf.length : Int) = sizeLen) := by
  constructor
  · by_cases h : sizeLen = 1 ∨ sizeLen = 2 ∨ sizeLen = 4
    · simp [Packet, h]
    · simp [Packet, h]
  · intro h
    refine ⟨{ r := r, w := w,
              max := ((1 * 2 ^ uint32 (sizeLen * 8)) % 2 ^ 32 + 2 ^ 32 - 1) % 2 ^ 32,
              sizeBuf := List.replicate sizeLen.toNat 0 },
      by simp only [Packet, h, if_true], rfl, rfl, ?_⟩
    rcases h with h | h | h <;> subst h <;> simp

/-- C8 (maximum payload size): the port built by `Packet` for `sizeLen` = 1, 2, 4 has
`max` = 255, 65535, 4294967295, that is `2^(8*sizeLen) - 1`; for `sizeLen = 4` the
`uint32` shift `1 << 32` gives 0 and the subtraction wraps around. -/
theorem C8_max_payload (r : Reader) (w : Writer) :
    (Packet r w 1).1.map packetPort.max = some 255 ∧
      (Packet r w 2).1.map packetPort.max = some 65535 ∧
      (Packet r w 4).1.map packetPort.max = some 4294967295 ∧
      (∀ sizeLen : Nat, sizeLen = 1 ∨ sizeLen = 2 ∨ sizeLen = 4 →
        (Packet r w (sizeLen : Int)).1.map packetPort.max = some (2 ^ (8 * sizeLen) - 1)) ∧
      (1 * 2 ^ uint32 (4 * 8)) % 2 ^ 32 = 0 := by
  refine ⟨by simp [Packet, uint32], by simp [Packet, uint32], by simp [Packet, uint32], ?_,
    by simp [uint32]⟩
  intro sizeLen hk
  rw [Packet_eq r w sizeLen hk]
  rfl

theorem bigEndian_zero (k : Nat) : bigEndian k 0 = List.replicate k 0 := by
  induction k with
  | zero => rfl
  | succ k ih =>
    simp only [bigEndian, ih, List.replicate_succ]
    congr 1
    simp [uint8]

/-- C9 (zero-length packet): on a port whose scratch buffer has 1, 2 or 4 bytes, when
the input stream begins with `sizeLen` zero bytes, `Read(out)` returns `(0, nil)` for
every buffer `out` (the empty one too), leaves `out` as it was and consumes exactly
those `sizeLen` bytes. -/
theorem C9_zero_length_read (intSize fuel sizeLen : Nat) (p : packetPort)
    (out rest : List Byte)
    (hint : intSize = 32 ∨ intSize = 64)
    (hk : sizeLen = 1 ∨ sizeLen = 2 ∨ sizeLen = 4) (hbuf : p.sizeBuf.length = sizeLen)
    (hdata : p.r.data = List.replicate sizeLen 0 ++ rest)
    (hf : sizeLen ≤ fuel) :
    ∃ p1, p.Read intSize fuel out = .ok ((0, none), out, p1) ∧ p1.r.data = rest ∧
      p1.w = p.w := by
  obtain ⟨cs, h⟩ := Read_packet intSize fuel sizeLen p [] rest out hk hbuf
    (by simpa [bigEndian_zero] using hdata) (by simp)
    hint (by simp) (by simp) (by simpa using hf)
  refine ⟨{ p with r := { data := rest, chunks := cs }, sizeBuf := bigEndian sizeLen 0 },
    ?_, rfl, rfl⟩
  simpa using h

/-- Witness of C9: a two-byte zero header followed by another packet. -/
theorem C9_zero_length_read_witness :
    ∃ p1, packetPort.Read 64 2
        { r := Reader.ofBytes [0, 0, 0, 1, 7], w := Writer.fresh, max := 65535, sizeBuf := [3, 3] }
        [] = .ok ((0, none), [], p1) ∧ p1.r.data = [0, 1, 7] ∧ p1.w = Writer.fresh :=
  C9_zero_length_read 64 2 2
    { r := Reader.ofBytes [0, 0, 0, 1, 7], w := Writer.fresh, max := 65535, sizeBuf := [3, 3] }
    [] [0, 1, 7] (Or.inr rfl) (by decide) rfl rfl (by decide)

/-- C10 (read into a large-enough buffer): on a port whose scratch buffer has 1, 2 or
4 bytes, when the input stream begins with the size header of `L` and `L` payload
bytes, `0 < L ≤ len(out)`, `Read(out)` returns `(L, nil)`, `out[0..L)` is the payload,
`out[L..]` is unchanged and exactly `sizeLen + L` bytes are consumed, whatever the
bounds on the individual reads of the underlying reader. -/
theorem C10_read_fits (intSize fuel sizeLen : Nat) (p : packetPort)
    (payload rest out : List Byte)
    (hint : intSize = 32 ∨ intSize = 64)
    (hk : sizeLen = 1 ∨ sizeLen = 2 ∨ sizeLen = 4) (hbuf : p.sizeBuf.length = sizeLen)
    (hdata : p.r.data = bigEndian sizeLen payload.length ++ payload ++ rest)
    (hL : payload.length ≤ 2 ^ (8 * sizeLen) - 1)
    (hpos : 0 < payload.length) (hout : payload.length ≤ out.length)
    (hfit : out.length < 2 ^ (intSize - 1))
    (hf : sizeLen + payload.length ≤ fuel) :
    ∃ p1, p.Read intSize fuel out =
        .ok (((payload.length : Int), none), payload ++ out.drop payload.length, p1) ∧
      p1.r.data = rest ∧ p1.w = p.w := by
  obtain ⟨cs, h⟩ := Read_packet intSize fuel sizeLen p payload rest out hk hbuf hdata hL
    hint (by omega) hout hf
  exact ⟨_, h, rfl, rfl⟩

/-- Witness of C10: a three-byte payload delivered one byte per read into a buffer of
five bytes. -/
theorem C10_read_fits_witness :
    ∃ p1, packetPort.Read 64 4
        { r := { data := [3, 7, 8, 9, 1, 4], chunks := [0, 0, 0, 0, 0, 0] }, w := Writer.fresh,
          max := 255, sizeBuf := [0] }
        [1, 1, 1, 1, 1] =
        .ok (((([7, 8, 9] : List Byte).length : Int), none),
          [7, 8, 9] ++ ([1, 1, 1, 1, 1] : List Byte).drop ([7, 8, 9] : List Byte).length, p1) ∧
      p1.r.data = [1, 4] ∧ p1.w = Writer.fresh :=
  C10_read_fits 64 4 1
    { r := { data := [3, 7, 8, 9, 1, 4], chunks := [0, 0, 0, 0, 0, 0] }, w := Writer.fresh,
      max := 255, sizeBuf := [0] }
    [7, 8, 9] [1, 4] [1, 1, 1, 1, 1] (Or.inr rfl) (by decide) rfl (by decide) (by decide)
    (by decide) (by decide) (by decide) (by decide)


/-! ## The skipping loop of `Read` -/

theorem skip_empty_buffer (fuel : Nat) : ∀ (r : Reader) (size : Int), 0 < size →
    packetPort.Read.skip fuel r [] size none = .error Halt.outOfFuel := by
  induction fuel with
  | zero => intro r size h; simp [packetPort.Read.skip, h]
  | succ fuel ih =>
    intro r size h
    simp only [packetPort.Read.skip, h, Reader.Read_nil, true_or, and_self, if_true]
    simpa using ih r size h

/-- C3, the code at a failing input: one-byte size length, a two-byte buffer, and a
stream holding the packet `[10, 11, 12]` followed by the packet `[42]`.  `Read`
returns `(0, ErrTooBig)` but has consumed five bytes, not four: the last read of the
skipping loop asks for `len(out)` bytes and takes the next packet's size header with
it, so the next `ReadOne()` takes `42` for a size and fails with `io.EOF`. -/
theorem C3_skip_reads_past_packet :
    ∃ p1 p2, packetPort.Read 64 10
        { r := Reader.ofBytes [3, 10, 11, 12, 1, 42], w := Writer.fresh, max := 255,
          sizeBuf := [0] } [0, 0] = .ok ((0, some Error.ErrTooBig), [12, 1], p1) ∧
      p1.r.data = [42] ∧
      p1.ReadOne 64 100 = .ok ((some [], some Error.EOF), p2) :=
  ⟨_, _, rfl, rfl, rfl⟩

/-- C4, the code at a failing input: one-byte size length, the payload `[7]` written to
the paired stream, then `Read` into an empty buffer.  Whatever the number of
iterations allowed, `Read` does not return: every read of the skipping loop is given
the empty buffer, gets `(0, nil)` and leaves `size` at 1. -/
theorem C4_empty_buffer_never_returns (fuel : Nat) :
    (packetPort.Write 64
        { r := Reader.ofBytes [], w := Writer.fresh, max := 255, sizeBuf := [0] } [7]).1
        = (1, none) ∧
      (packetPort.Write 64
        { r := Reader.ofBytes [], w := Writer.fresh, max := 255, sizeBuf := [0] }
        [7]).2.deliver.Read 64 fuel [] = .error Halt.outOfFuel := by
  refine ⟨rfl, ?_⟩
  have hw : (packetPort.Write 64
        { r := Reader.ofBytes [], w := Writer.fresh, max := 255, sizeBuf := [0] }
        [7]).2.deliver =
      { r := Reader.ofBytes [1, 7], w := { out := [], script := [], log := [[1], [7]] },
        max := 255, sizeBuf := [1] } := rfl
  rw [hw]
  cases fuel with
  | zero => rfl
  | succ fuel =>
    have hs : packetPort.readSize 64 (fuel + 1)
        { r := Reader.ofBytes [1, 7], w := { out := [], script := [], log := [[1], [7]] },
          max := 255, sizeBuf := [1] } =
        .ok ((1, none),
          { r := { data := [7], chunks := [] },
            w := { out := [], script := [], log := [[1], [7]] }, max := 255, sizeBuf := [1] }) := by
      cases fuel <;> rfl
    simp only [packetPort.Read, hs]
    simp [skip_empty_buffer]

/-! ## Truncated payloads, failing writes, end of stream in the skipping loop -/

theorem ReadOne_truncated (intSize fuel sizeLen L : Nat) (p : packetPort) (part : List Byte)
    (hk : sizeLen = 1 ∨ sizeLen = 2 ∨ sizeLen = 4) (hbuf : p.sizeBuf.length = sizeLen)
    (hdata : p.r.data = bigEndian sizeLen L ++ part)
    (hL : L ≤ 2 ^ (8 * sizeLen) - 1)
    (hint : intSize = 32 ∨ intSize = 64) (hfit : L < 2 ^ (intSize - 1))
    (hshort : part.length < L) (hf : sizeLen + L ≤ fuel) :
    ∃ cs, p.ReadOne intSize fuel =
      .ok ((some part,
          some (if part.length = 0 then Error.EOF else Error.ErrUnexpectedEOF)),
        { p with r := { data := [], chunks := cs }, sizeBuf := bigEndian sizeLen L }) := by
  obtain ⟨cs, h⟩ := readSize_header intSize fuel sizeLen L p part hk hbuf hdata hL hint hfit
    (by omega)
  obtain ⟨cs2, h2⟩ := ReadFull_short fuel { data := part, chunks := cs }
    (List.replicate L 0) (by simpa using hshort) (by simp; omega)
  refine ⟨cs2, ?_⟩
  have hL0 : L ≠ 0 := by omega
  simp only [List.length_replicate] at h2
  simp [packetPort.ReadOne, h, hL0, h2]

/-- C11, the claim fails as stated: with a 32-bit `int` and a four-byte size length,
the stream holds the complete header `[128, 0, 0, 0]`, which declares `L = 2^31 > 0`,
followed by `k = 1 < L` payload byte and the end of the stream.  `ReadOne()` does not
return that byte with an error: `size` is negative and `make([]byte, size)` panics. -/
theorem C11_declared_length_beyond_int :
    (Reader.ofBytes [128, 0, 0, 0, 5]).data = bigEndian 4 2147483648 ++ [5] ∧
      packetPort.ReadOne 32 8
        { r := Reader.ofBytes [128, 0, 0, 0, 5], w := Writer.fresh, max := 4294967295,
          sizeBuf := [0, 0, 0, 0] } = .error Halt.runtimePanic :=
  ⟨by decide, rfl⟩

/-- C11 as amended (`ReadOne` on a truncated payload): on a port whose scratch buffer
has 1, 2 or 4 bytes, when the stream holds the size header of a length `L > 0` that
fits `int` (every `L` when `int` has 64 bits, `L < 2^31` when it has 32) followed by
only `k < L` payload bytes and then ends, `ReadOne()` returns exactly those `k` bytes
with a non-nil error (`io.EOF` if `k = 0`, `io.ErrUnexpectedEOF` otherwise); when all
`L` bytes are there it returns a slice of length `L` with a nil error. -/
theorem C11_readOne_truncated (intSize fuel sizeLen L : Nat) (p : packetPort)
    (part : List Byte)
    (hint : intSize = 32 ∨ intSize = 64)
    (hk : sizeLen = 1 ∨ sizeLen = 2 ∨ sizeLen = 4) (hbuf : p.sizeBuf.length = sizeLen)
    (hdata : p.r.data = bigEndian sizeLen L ++ part)
    (hL : L ≤ 2 ^ (8 * sizeLen) - 1) (hpos : 0 < L)
    (hfit : intSize = 32 → L < 2 ^ 31)
    (hf : sizeLen + L ≤ fuel) :
    (part.length < L → ∃ p1, p.ReadOne intSize fuel =
        .ok ((some part,
          some (if part.length = 0 then Error.EOF else Error.ErrUnexpectedEOF)), p1)) ∧
      (part.length = L → ∃ p1, p.ReadOne intSize fuel = .ok ((some part, none), p1)) := by
  have hfit2 : L < 2 ^ (intSize - 1) := by
    rcases hint with h | h
    · have h31 := hfit h
      subst h
      norm_num at h31 ⊢
      omega
    · subst h
      rcases hk with hk | hk | hk <;> subst hk <;> norm_num at hL ⊢ <;> omega
  constructor
  · intro hshort
    obtain ⟨cs, h⟩ := ReadOne_truncated intSize fuel sizeLen L p part hk hbuf hdata hL hint
      hfit2 hshort hf
    exact ⟨_, h⟩
  · intro hfull
    subst hfull
    obtain ⟨cs, h⟩ := ReadOne_packet intSize fuel sizeLen p part [] hk hbuf
      (by simpa using hdata) hL hint hfit2 hf
    exact ⟨_, h⟩

/-- Witness of C11 as amended: a 32-bit `int`, a two-byte header declaring 3 bytes, one
payload byte, end of stream. -/
theorem C11_readOne_truncated_witness :
    (([9] : List Byte).length < 3 → ∃ p1, packetPort.ReadOne 32 5
        { r := Reader.ofBytes [0, 3, 9], w := Writer.fresh, max := 65535, sizeBuf := [0, 0] } =
        .ok ((some [9],
          some (if ([9] : List Byte).length = 0 then Error.EOF else Error.ErrUnexpectedEOF)),
          p1)) ∧
      (([9] : List Byte).length = 3 → ∃ p1, packetPort.ReadOne 32 5
        { r := Reader.ofBytes [0, 3, 9], w := Writer.fresh, max := 65535, sizeBuf := [0, 0] } =
        .ok ((some [9], none), p1)) :=
  C11_readOne_truncated 32 5 2 3
    { r := Reader.ofBytes [0, 3, 9], w := Writer.fresh, max := 65535, sizeBuf := [0, 0] }
    [9] (Or.inl rfl) (by decide) rfl rfl (by decide) (by decide) (by decide) (by decide)

/-- C12, the code at a failing input: with a 32-bit `int` and a four-byte size length,
the header `[128, 0, 0, 0]` (value `2^31`) makes `readSize` return the negative size
`-2^31` with a nil error, not `ErrSizeOverflow`: `uint32(int(size32)) != size32` is
never true.  `ReadOne` then panics in `make` and `Read` in `out[:size]`. -/
theorem C12_overflow_check_never_fires :
    (∃ p1, packetPort.readSize 32 4
        { r := Reader.ofBytes [128, 0, 0, 0, 5], w := Writer.fresh, max := 4294967295,
          sizeBuf := [0, 0, 0, 0] } = .ok ((-2147483648, none), p1)) ∧
      packetPort.ReadOne 32 4
        { r := Reader.ofBytes [128, 0, 0, 0, 5], w := Writer.fresh, max := 4294967295,
          sizeBuf := [0, 0, 0, 0] } = .error Halt.runtimePanic ∧
      packetPort.Read 32 4
        { r := Reader.ofBytes [128, 0, 0, 0, 5], w := Writer.fresh, max := 4294967295,
          sizeBuf := [0, 0, 0, 0] } [0, 0] = .error Halt.runtimePanic :=
  ⟨⟨_, rfl⟩, rfl, rfl⟩

/-- C13 (failing write of the size header): on a configured port, for a payload with
`len(payload) ≤ max`, when the underlying writer answers the write of the size header
with the error `e`, `Write` returns `(0, e)` and the only call made of the underlying
writer is the one with the size header: the payload is never passed to it. -/
theorem C13_header_write_fails (intSize sizeLen k : Nat) (p : packetPort)
    (payload : List Byte) (e : Error) (rest : List (Option (Nat × Error)))
    (hint : intSize = 32 ∨ intSize = 64)
    (hc : Configured sizeLen p)
    (hlen : payload.length ≤ p.max)
    (hfit : payload.length < 2 ^ (intSize - 1))
    (hs : p.w.script = some (k, e) :: rest) :
    (p.Write intSize payload).1 = (0, some e) ∧
      (p.Write intSize payload).2.w.log = p.w.log ++ [bigEndian sizeLen payload.length] ∧
      (p.Write intSize payload).2.w.out =
        p.w.out ++ (bigEndian sizeLen payload.length).take k := by
  have hg := Write_guard intSize sizeLen p payload hc (by rw [← hc.2.2]; exact hlen) hint hfit
  have hsb := Write_sizeBuf sizeLen payload.length p.sizeBuf hc.1 hc.2.1
    (by rw [← hc.2.2]; exact hlen)
  simp only [packetPort.Write, hg, if_false, hsb]
  simp [Writer.Write, hs]

/-- Witness of C13: the writer refuses the first write with the error `other 7`. -/
theorem C13_header_write_fails_witness :
    (packetPort.Write 64
        { r := Reader.ofBytes [], w := { out := [], script := [some (0, Error.other 7)], log := [] },
          max := 255, sizeBuf := [0] } [1, 2]).1 = (0, some (Error.other 7)) ∧
      (packetPort.Write 64
        { r := Reader.ofBytes [], w := { out := [], script := [some (0, Error.other 7)], log := [] },
          max := 255, sizeBuf := [0] } [1, 2]).2.w.log =
        ([] : List (List Byte)) ++ [bigEndian 1 ([1, 2] : List Byte).length] ∧
      (packetPort.Write 64
        { r := Reader.ofBytes [], w := { out := [], script := [some (0, Error.other 7)], log := [] },
          max := 255, sizeBuf := [0] } [1, 2]).2.w.out =
        ([] : List Byte) ++ (bigEndian 1 ([1, 2] : List Byte).length).take 0 :=
  C13_header_write_fails 64 1 0
    { r := Reader.ofBytes [], w := { out := [], script := [some (0, Error.other 7)], log := [] },
      max := 255, sizeBuf := [0] } [1, 2] (Error.other 7) [] (Or.inr rfl) (by decide)
    (by decide) (by decide) rfl

theorem skip_at_end_of_stream (fuel : Nat) : ∀ (r : Reader) (out : List Byte) (size : Int)
    (err : Option Error), r.data = [] → out ≠ [] → 0 < size →
    (err = none ∨ err = some Error.EOF) →
    packetPort.Read.skip fuel r out size err = .error Halt.outOfFuel := by
  induction fuel with
  | zero => intro r out size err _ _ h he; simp [packetPort.Read.skip, h, he]
  | succ fuel ih =>
    intro r out size err hd ho h he
    have hrd := Reader.Read_eof r out ho hd
    simp only [packetPort.Read.skip, h, he, hrd, and_self, if_true]
    simpa using ih r out size (some Error.EOF) hd ho h (Or.inr rfl)

/-- C15, the code at a failing input: one-byte size length, a two-byte buffer, and a
stream holding a header that declares 5 bytes followed by 2 bytes and the end of the
stream.  Whatever the number of iterations allowed, `Read` does not return: once the
stream is exhausted every read gives `(0, io.EOF)`, `size` stays at 3 and the loop
condition `size > 0 && (err == nil || err == io.EOF)` stays true. -/
theorem C15_skip_spins_at_end_of_stream (fuel : Nat) :
    packetPort.Read 64 fuel
      { r := Reader.ofBytes [5, 1, 2], w := Writer.fresh, max := 255, sizeBuf := [0] }
      [0, 0] = .error Halt.outOfFuel := by
  cases fuel with
  | zero => rfl
  | succ fuel =>
    have hs : packetPort.readSize 64 (fuel + 1)
        { r := Reader.ofBytes [5, 1, 2], w := Writer.fresh, max := 255, sizeBuf := [0] } =
        .ok ((5, none),
          { r := { data := [1, 2], chunks := [] }, w := Writer.fresh, max := 255,
            sizeBuf := [5] }) := by
      cases fuel <;> rfl
    have hstep : packetPort.Read.skip (fuel + 1) { data := [1, 2], chunks := [] } [0, 0] 5 none =
        packetPort.Read.skip fuel { data := [], chunks := [] } [1, 2] 3 none := rfl
    simp only [packetPort.Read, hs]
    simp only [ne_eq, not_true_eq_false, if_false, hstep]
    rw [skip_at_end_of_stream fuel _ _ _ _ rfl (by simp) (by decide) (Or.inl rfl)]
    simp

/-! ## The two switches on `len(p.sizeBuf)` -/

theorem Write_putSize (intSize : Nat) (p : packetPort) (data : List Byte)
    (hg : ¬ (uint32 (data.length : Int) > p.max ∨
      toInt intSize (uint32 (data.length : Int)) ≠ (data.length : Int))) :
    p.Write intSize data =
      if (p.w.Write (packetPort.Write.putSize p.sizeBuf (data.length : Int))).1.2 ≠ none then
        ((0, (p.w.Write (packetPort.Write.putSize p.sizeBuf (data.length : Int))).1.2),
          { p with sizeBuf := packetPort.Write.putSize p.sizeBuf (data.length : Int)
                   w := (p.w.Write (packetPort.Write.putSize p.sizeBuf (data.length : Int))).2 })
      else
        ((((((p.w.Write (packetPort.Write.putSize p.sizeBuf (data.length : Int))).2.Write
              data).1.1 : Nat) : Int),
            ((p.w.Write (packetPort.Write.putSize p.sizeBuf (data.length : Int))).2.Write
              data).1.2),
          { p with sizeBuf := packetPort.Write.putSize p.sizeBuf (data.length : Int)
                   w := ((p.w.Write (packetPort.Write.putSize p.sizeBuf
                          (data.length : Int))).2.Write data).2 }) := by
  simp only [packetPort.Write, hg, if_false, packetPort.Write.putSize]

theorem readSize_getSize (intSize fuel : Nat) (p : packetPort) (n : Nat) (buf : List Byte)
    (r1 : Reader) (h : ReadFull fuel p.r p.sizeBuf = .ok ((n, none), buf, r1)) :
    p.readSize intSize fuel =
      .ok (packetPort.readSize.getSize intSize buf, { p with r := r1, sizeBuf := buf }) := by
  simp only [packetPort.readSize, h, packetPort.readSize.getSize]
  split_ifs <;> simp_all

theorem putSize_one (a : Byte) (size : Int) :
    packetPort.Write.putSize [a] size = [uint8 size] := by
  simp [packetPort.Write.putSize]

theorem putSize_two (a b : Byte) (size : Int) :
    packetPort.Write.putSize [a, b] size =
      [uint8 ((uint16 size / 2 ^ 8 : Nat) : Int), uint8 ((uint16 size : Nat) : Int)] := by
  simp [packetPort.Write.putSize, BigEndian.PutUint16]

theorem putSize_four (a b c d : Byte) (size : Int) :
    packetPort.Write.putSize [a, b, c, d] size =
      [uint8 ((uint32 size / 2 ^ 24 : Nat) : Int), uint8 ((uint32 size / 2 ^ 16 : Nat) : Int),
        uint8 ((uint32 size / 2 ^ 8 : Nat) : Int), uint8 ((uint32 size : Nat) : Int)] := by
  simp [packetPort.Write.putSize, BigEndian.PutUint32]

theorem putSize_congr (b1 b2 : List Byte) (size : Int) (hlen : b1.length = b2.length)
    (hk : b1.length = 1 ∨ b1.length = 2 ∨ b1.length = 4) :
    packetPort.Write.putSize b1 size = packetPort.Write.putSize b2 size := by
  rcases hk with hk | hk | hk
  · match b1, b2, hk, hlen with
    | [a], [b], _, _ => rw [putSize_one, putSize_one]
  · match b1, b2, hk, hlen with
    | [a, a1], [b, c1], _, _ => rw [putSize_two, putSize_two]
  · match b1, b2, hk, hlen with
    | [a, a1, a2, a3], [b, c1, c2, c3], _, _ => rw [putSize_four, putSize_four]

/-- C19 (`Write` and earlier scratch contents): two ports that have the same reader,
writer and `max` and scratch buffers of the same length 1, 2 or 4, whatever these
buffers hold, give the same result of `Write(payload)`, the same writer afterwards
(output bytes and calls), and the same scratch buffer whenever the payload is not
rejected for its size: every scratch byte is overwritten before it is sent. -/
theorem C19_write_ignores_scratch (intSize : Nat) (p1 p2 : packetPort) (payload : List Byte)
    (hr : p1.r = p2.r) (hw : p1.w = p2.w) (hm : p1.max = p2.max)
    (hlen : p1.sizeBuf.length = p2.sizeBuf.length)
    (hk : p1.sizeBuf.length = 1 ∨ p1.sizeBuf.length = 2 ∨ p1.sizeBuf.length = 4) :
    (p1.Write intSize payload).1 = (p2.Write intSize payload).1 ∧
      (p1.Write intSize payload).2.w = (p2.Write intSize payload).2.w ∧
      ((p1.Write intSize payload).1 ≠ (0, some Error.ErrSizeOverflow) →
        (p1.Write intSize payload).2 = (p2.Write intSize payload).2) := by
  have hps := putSize_congr p1.sizeBuf p2.sizeBuf (payload.length : Int) hlen hk
  by_cases hg : uint32 (payload.length : Int) > p1.max ∨
      toInt intSize (uint32 (payload.length : Int)) ≠ (payload.length : Int)
  · have hg2 : uint32 (payload.length : Int) > p2.max ∨
        toInt intSize (uint32 (payload.length : Int)) ≠ (payload.length : Int) := by
      rw [← hm]; exact hg
    simp only [packetPort.Write, hg, hg2, if_true, hw, ne_eq, not_true_eq_false, false_implies,
      and_self]
  · have hg2 : ¬ (uint32 (payload.length : Int) > p2.max ∨
        toInt intSize (uint32 (payload.length : Int)) ≠ (payload.length : Int)) := by
      rw [← hm]; exact hg
    rw [Write_putSize intSize p1 payload hg, Write_putSize intSize p2 payload hg2, hps, hw,
      hr, hm]
    simp

/-- Witness of C19: scratch buffers `[0, 0]` and `[200, 17]`. -/
theorem C19_write_ignores_scratch_witness :
    (packetPort.Write 64
        { r := Reader.ofBytes [], w := Writer.fresh, max := 65535, sizeBuf := [0, 0] } [5]).1 =
      (packetPort.Write 64
        { r := Reader.ofBytes [], w := Writer.fresh, max := 65535, sizeBuf := [200, 17] } [5]).1 ∧
      (packetPort.Write 64
        { r := Reader.ofBytes [], w := Writer.fresh, max := 65535, sizeBuf := [0, 0] } [5]).2.w =
      (packetPort.Write 64
        { r := Reader.ofBytes [], w := Writer.fresh, max := 65535, sizeBuf := [200, 17] }
        [5]).2.w ∧
      ((packetPort.Write 64
        { r := Reader.ofBytes [], w := Writer.fresh, max := 65535, sizeBuf := [0, 0] } [5]).1 ≠
          (0, some Error.ErrSizeOverflow) →
        (packetPort.Write 64
          { r := Reader.ofBytes [], w := Writer.fresh, max := 65535, sizeBuf := [0, 0] } [5]).2 =
        (packetPort.Write 64
          { r := Reader.ofBytes [], w := Writer.fresh, max := 65535, sizeBuf := [200, 17] }
          [5]).2) :=
  C19_write_ignores_scratch 64
    { r := Reader.ofBytes [], w := Writer.fresh, max := 65535, sizeBuf := [0, 0] }
    { r := Reader.ofBytes [], w := Writer.fresh, max := 65535, sizeBuf := [200, 17] }
    [5] rfl rfl rfl rfl (by decide)

/-! ## The size header codec -/

theorem uint8_eq_iff (v : Nat) (a : Byte) (h : v % 256 = a.val) : uint8 (v : Int) = a := by
  apply Fin.ext
  rw [uint8_val]
  exact h

theorem getSize_putSize (sizeLen n : Nat) (buf : List Byte)
    (hk : sizeLen = 1 ∨ sizeLen = 2 ∨ sizeLen = 4) (hbuf : buf.length = sizeLen)
    (hn : n ≤ 2 ^ (8 * sizeLen) - 1) :
    packetPort.readSize.getSize 64 (packetPort.Write.putSize buf (n : Int)) =
      ((n : Int), none) := by
  have hps : packetPort.Write.putSize buf (n : Int) = bigEndian sizeLen n := by
    simpa [packetPort.Write.putSize] using Write_sizeBuf sizeLen n buf hk hbuf hn
  rw [hps]
  rcases hk with hk | hk | hk <;> subst hk
  · have hL2 : n < 256 := by norm_num at hn; omega
    have hv : n % 256 = n := Nat.mod_eq_of_lt hL2
    simp [packetPort.readSize.getSize, bigEndian_one, uint8_val, hv]
  · have hL2 : n < 2 ^ 16 := by norm_num at hn ⊢; omega
    simp [packetPort.readSize.getSize, bigEndian_length, Uint16_bigEndian n hL2]
  · have hL2 : n < 2 ^ 32 := by norm_num at hn ⊢; omega
    have hfit : n < 2 ^ (64 - 1) := by norm_num at hL2 ⊢; omega
    simp [packetPort.readSize.getSize, bigEndian_length, Uint32_bigEndian n hL2,
      toInt_of_lt 64 n (Or.inr rfl) hfit, uint32_of_lt n hL2]

theorem bigEndian_Uint16 (a b : Byte) :
    bigEndian 2 (BigEndian.Uint16 [a, b]) = [a, b] ∧ BigEndian.Uint16 [a, b] < 2 ^ 16 := by
  have ha := a.isLt
  have hb := b.isLt
  simp only [bigEndian_two, BigEndian.Uint16, List.getD_cons_zero, List.getD_cons_succ]
  refine ⟨?_, by omega⟩
  rw [uint8_eq_iff _ a (by omega), uint8_eq_iff _ b (by omega)]

theorem bigEndian_Uint32 (a b c d : Byte) :
    bigEndian 4 (BigEndian.Uint32 [a, b, c, d]) = [a, b, c, d] ∧
      BigEndian.Uint32 [a, b, c, d] < 2 ^ 32 := by
  have ha := a.isLt
  have hb := b.isLt
  have hc := c.isLt
  have hd := d.isLt
  simp only [bigEndian_four, BigEndian.Uint32, List.getD_cons_zero, List.getD_cons_succ]
  refine ⟨?_, by omega⟩
  rw [uint8_eq_iff _ a (by omega), uint8_eq_iff _ b (by omega), uint8_eq_iff _ c (by omega),
    uint8_eq_iff _ d (by omega)]

theorem header_value (sizeLen : Nat) (b : List Byte)
    (hk : sizeLen = 1 ∨ sizeLen = 2 ∨ sizeLen = 4) (hb : b.length = sizeLen) :
    ∃ v : Nat, v ≤ 2 ^ (8 * sizeLen) - 1 ∧ b = bigEndian sizeLen v ∧
      packetPort.readSize.getSize 64 b = ((v : Int), none) := by
  rcases hk with hk | hk | hk <;> subst hk
  · match b, hb with
    | [a], _ =>
      have ha := a.isLt
      refine ⟨a.val, by norm_num; omega, ?_, by simp [packetPort.readSize.getSize]⟩
      rw [bigEndian_one, uint8_eq_iff _ a (by omega)]
  · match b, hb with
    | [a, c], _ =>
      obtain ⟨h1, h2⟩ := bigEndian_Uint16 a c
      refine ⟨BigEndian.Uint16 [a, c], by norm_num at h2 ⊢; omega, h1.symm,
        by simp [packetPort.readSize.getSize]⟩
  · match b, hb with
    | [a, c, d, e], _ =>
      obtain ⟨h1, h2⟩ := bigEndian_Uint32 a c d e
      have hfit : BigEndian.Uint32 [a, c, d, e] < 2 ^ (64 - 1) := by norm_num at h2 ⊢; omega
      refine ⟨BigEndian.Uint32 [a, c, d, e], by norm_num at h2 ⊢; omega, h1.symm, ?_⟩
      simp [packetPort.readSize.getSize, toInt_of_lt 64 _ (Or.inr rfl) hfit,
        uint32_of_lt _ h2]

/-- C20 (the size header codec is a bijection): with a 64-bit `int`, for a scratch
buffer of 1, 2 or 4 bytes, the switch of `readSize` applied to what the switch of
`Write` stores for a length `n ≤ 2^(8*sizeLen) - 1` gives `(n, nil)`; and every
sequence `b` of `sizeLen` bytes decodes with a nil error to a value `v` with
`0 ≤ v ≤ 2^(8*sizeLen) - 1` that the switch of `Write` encodes back to `b`. -/
theorem C20_codec_bijection (sizeLen : Nat) (buf : List Byte)
    (hk : sizeLen = 1 ∨ sizeLen = 2 ∨ sizeLen = 4) (hbuf : buf.length = sizeLen) :
    (∀ n : Nat, n ≤ 2 ^ (8 * sizeLen) - 1 →
        packetPort.readSize.getSize 64 (packetPort.Write.putSize buf (n : Int)) =
          ((n : Int), none)) ∧
      (∀ b : List Byte, b.length = sizeLen →
        ∃ v : Nat, packetPort.readSize.getSize 64 b = ((v : Int), none) ∧
          v ≤ 2 ^ (8 * sizeLen) - 1 ∧ packetPort.Write.putSize buf (v : Int) = b) := by
  constructor
  · intro n hn
    exact getSize_putSize sizeLen n buf hk hbuf hn
  · intro b hb
    obtain ⟨v, hv, hbe, hg⟩ := header_value sizeLen b hk hb
    refine ⟨v, hg, hv, ?_⟩
    rw [hbe]
    simpa [packetPort.Write.putSize] using Write_sizeBuf sizeLen v buf hk hbuf hv

/-- Witness of C20: a four-byte scratch buffer. -/
theorem C20_codec_bijection_witness :
    (∀ n : Nat, n ≤ 2 ^ (8 * 4) - 1 →
        packetPort.readSize.getSize 64 (packetPort.Write.putSize [0, 0, 0, 0] (n : Int)) =
          ((n : Int), none)) ∧
      (∀ b : List Byte, b.length = 4 →
        ∃ v : Nat, packetPort.readSize.getSize 64 b = ((v : Int), none) ∧
          v ≤ 2 ^ (8 * 4) - 1 ∧ packetPort.Write.putSize [0, 0, 0, 0] (v : Int) = b) :=
  C20_codec_bijection 4 [0, 0, 0, 0] (by decide) rfl

/-! ## The configuration is invariant -/

theorem Reader.Read_length (r : Reader) (p : List Byte) : (r.Read p).2.1.length = p.length := by
  unfold Reader.Read
  split_ifs with h1 h2
  · rfl
  · rfl
  · cases r.chunks <;> simp

theorem ReadAtLeast.loop_length (fuel : Nat) : ∀ (r : Reader) (buf : List Byte) (m n : Nat)
    (err : Option Error) (res : Nat × Option Error) (buf1 : List Byte) (r1 : Reader),
    ReadAtLeast.loop fuel r buf m n err = .ok (res, buf1, r1) → buf1.length = buf.length := by
  induction fuel with
  | zero =>
    intro r buf m n err res buf1 r1 h
    simp only [ReadAtLeast.loop] at h
    split_ifs at h
    simp only [Except.ok.injEq, Prod.mk.injEq] at h
    rw [← h.2.1]
  | succ fuel ih =>
    intro r buf m n err res buf1 r1 h
    simp only [ReadAtLeast.loop] at h
    split_ifs at h
    · have := ih _ _ _ _ _ _ _ _ h
      rw [this]
      simp [Reader.Read_length]
      omega
    · simp only [Except.ok.injEq, Prod.mk.injEq] at h
      rw [← h.2.1]

theorem ReadFull_length (fuel : Nat) (r : Reader) (buf : List Byte)
    (res : Nat × Option Error) (buf1 : List Byte) (r1 : Reader)
    (h : ReadFull fuel r buf = .ok (res, buf1, r1)) : buf1.length = buf.length := by
  simp only [ReadFull, ReadAtLeast, lt_self_iff_false, if_false] at h
  cases hl : ReadAtLeast.loop fuel r buf buf.length 0 none with
  | error e => simp [hl] at h
  | ok v =>
    obtain ⟨⟨n, err⟩, b2, r2⟩ := v
    have hb := ReadAtLeast.loop_length fuel r buf buf.length 0 none (n, err) b2 r2 hl
    simp only [hl] at h
    split_ifs at h <;> simp only [Except.ok.injEq, Prod.mk.injEq] at h <;> rw [← h.2.1, hb]

theorem readSize_config (intSize fuel : Nat) (p p1 : packetPort) (res : Int × Option Error)
    (h : p.readSize intSize fuel = .ok (res, p1)) :
    p1.sizeBuf.length = p.sizeBuf.length ∧ p1.max = p.max ∧ p1.w = p.w := by
  simp only [packetPort.readSize] at h
  cases hr : ReadFull fuel p.r p.sizeBuf with
  | error e => simp [hr] at h
  | ok v =>
    obtain ⟨⟨n, err⟩, b2, r2⟩ := v
    have hb := ReadFull_length fuel p.r p.sizeBuf (n, err) b2 r2 hr
    simp only [hr] at h
    split_ifs at h <;> simp only [Except.ok.injEq, Prod.mk.injEq] at h <;>
      (rw [← h.2]; exact ⟨hb, rfl, rfl⟩)

theorem Read_config (intSize fuel : Nat) (p p1 : packetPort) (out out1 : List Byte)
    (res : Int × Option Error) (h : p.Read intSize fuel out = .ok (res, out1, p1)) :
    p1.sizeBuf.length = p.sizeBuf.length ∧ p1.max = p.max ∧ p1.w = p.w := by
  simp only [packetPort.Read] at h
  cases hr : p.readSize intSize fuel with
  | error e => simp [hr] at h
  | ok v =>
    obtain ⟨⟨size, err⟩, p2⟩ := v
    have hc := readSize_config intSize fuel p p2 (size, err) hr
    simp only [hr] at h
    split_ifs at h
    · simp only [Except.ok.injEq, Prod.mk.injEq] at h
      rw [← h.2.2]; exact hc
    · simp only [Except.ok.injEq, Prod.mk.injEq] at h
      rw [← h.2.2]; exact hc
    · cases hs : packetPort.Read.skip fuel p2.r out size err with
      | error e => simp [hs] at h
      | ok v2 =>
        simp only [hs, Except.ok.injEq, Prod.mk.injEq] at h
        rw [← h.2.2]; exact hc
    · cases hf : ReadFull fuel p2.r (out.take size.toNat) with
      | error e => simp [hf] at h
      | ok v2 =>
        simp only [hf, Except.ok.injEq, Prod.mk.injEq] at h
        rw [← h.2.2]; exact hc

theorem ReadOne_config (intSize fuel : Nat) (p p1 : packetPort)
    (res : Option (List Byte) × Option Error) (h : p.ReadOne intSize fuel = .ok (res, p1)) :
    p1.sizeBuf.length = p.sizeBuf.length ∧ p1.max = p.max ∧ p1.w = p.w := by
  simp only [packetPort.ReadOne] at h
  cases hr : p.readSize intSize fuel with
  | error e => simp [hr] at h
  | ok v =>
    obtain ⟨⟨size, err⟩, p2⟩ := v
    have hc := readSize_config intSize fuel p p2 (size, err) hr
    simp only [hr] at h
    split_ifs at h
    · simp only [Except.ok.injEq, Prod.mk.injEq] at h
      rw [← h.2]; exact hc
    · simp only [Except.ok.injEq, Prod.mk.injEq] at h
      rw [← h.2]; exact hc
    · cases hf : ReadFull fuel p2.r (List.replicate size.toNat 0) with
      | error e => simp [hf] at h
      | ok v2 =>
        simp only [hf, Except.ok.injEq, Prod.mk.injEq] at h
        rw [← h.2]; exact hc

theorem putSize_length (buf : List Byte) (size : Int) :
    (packetPort.Write.putSize buf size).length = buf.length := by
  unfold packetPort.Write.putSize
  split_ifs <;> simp [BigEndian.PutUint16, BigEndian.PutUint32]

theorem Write_config (intSize : Nat) (p : packetPort) (data : List Byte) :
    (p.Write intSize data).2.sizeBuf.length = p.sizeBuf.length ∧
      (p.Write intSize data).2.max = p.max ∧ (p.Write intSize data).2.r = p.r := by
  by_cases hg : uint32 (data.length : Int) > p.max ∨
      toInt intSize (uint32 (data.length : Int)) ≠ (data.length : Int)
  · simp only [packetPort.Write, hg, if_true, and_self]
  · rw [Write_putSize intSize p data hg]
    split_ifs <;> exact ⟨putSize_length _ _, rfl, rfl⟩

theorem call_config (intSize fuel : Nat) (p p1 : packetPort) (c : Call)
    (h : p.call intSize fuel c = .ok p1) :
    p1.sizeBuf.length = p.sizeBuf.length ∧ p1.max = p.max := by
  cases c with
  | Read out =>
    simp only [packetPort.call] at h
    cases hr : p.Read intSize fuel out with
    | error e => simp [hr] at h
    | ok v =>
      obtain ⟨res, out1, p2⟩ := v
      simp only [hr, Except.ok.injEq] at h
      subst h
      exact ⟨(Read_config intSize fuel p p2 out out1 res hr).1,
        (Read_config intSize fuel p p2 out out1 res hr).2.1⟩
  | ReadOne =>
    simp only [packetPort.call] at h
    cases hr : p.ReadOne intSize fuel with
    | error e => simp [hr] at h
    | ok v =>
      obtain ⟨res, p2⟩ := v
      simp only [hr, Except.ok.injEq] at h
      subst h
      exact ⟨(ReadOne_config intSize fuel p p2 res hr).1,
        (ReadOne_config intSize fuel p p2 res hr).2.1⟩
  | Write data =>
    simp only [packetPort.call, Except.ok.injEq] at h
    subst h
    exact ⟨(Write_config intSize p data).1, (Write_config intSize p data).2.1⟩

theorem calls_config (intSize fuel : Nat) (cs : List Call) : ∀ (p p1 : packetPort),
    p.calls intSize fuel cs = .ok p1 →
    p1.sizeBuf.length = p.sizeBuf.length ∧ p1.max = p.max := by
  induction cs with
  | nil =>
    intro p p1 h
    simp only [packetPort.calls, Except.ok.injEq] at h
    subst h
    exact ⟨rfl, rfl⟩
  | cons c cs ih =>
    intro p p1 h
    simp only [packetPort.calls] at h
    cases hc : p.call intSize fuel c with
    | error e => simp [hc] at h
    | ok p2 =>
      simp only [hc] at h
      have h1 := call_config intSize fuel p p2 c hc
      have h2 := ih p2 p1 h
      exact ⟨h2.1.trans h1.1, h2.2.trans h1.2⟩

/-- C17 (configuration invariant): for a port returned by `Packet` with a nil error,
after any finite sequence of `Read`, `ReadOne` and `Write` calls that return
(successfully or with an error), the scratch buffer still has `sizeLen` bytes,
`sizeLen` is 1, 2 or 4, and `max` is unchanged and equals `2^(8*len(sizeBuf)) - 1`. -/
theorem C17_configuration_invariant (intSize fuel : Nat) (r : Reader) (w : Writer)
    (sizeLen : Int) (p p1 : packetPort) (cs : List Call)
    (hp : Packet r w sizeLen = (some p, none))
    (hcs : p.calls intSize fuel cs = .ok p1) :
    (p1.sizeBuf.length : Int) = sizeLen ∧ (sizeLen = 1 ∨ sizeLen = 2 ∨ sizeLen = 4) ∧
      p1.max = p.max ∧ p1.max = 2 ^ (8 * p1.sizeBuf.length) - 1 := by
  have hk : sizeLen = 1 ∨ sizeLen = 2 ∨ sizeLen = 4 := by
    by_contra hn
    simp [Packet, hn] at hp
  obtain ⟨n, hn, hn2⟩ : ∃ n : Nat, (n : Int) = sizeLen ∧ (n = 1 ∨ n = 2 ∨ n = 4) := by
    rcases hk with h | h | h
    · exact ⟨1, by simp [h], Or.inl rfl⟩
    · exact ⟨2, by simp [h], Or.inr (Or.inl rfl)⟩
    · exact ⟨4, by simp [h], Or.inr (Or.inr rfl)⟩
  subst hn
  obtain ⟨⟨_, hlen, hmax⟩, _, _⟩ := Packet_configured r w n p hn2 hp
  obtain ⟨h1, h2⟩ := calls_config intSize fuel cs p p1 hcs
  refine ⟨by rw [h1, hlen], hk, h2, ?_⟩
  rw [h2, h1, hlen, hmax]

/-- Witness of C17: a one-byte size length, a write of two bytes, then a read of the
three-byte packet waiting in the stream. -/
theorem C17_configuration_invariant_witness :
    ((([3] : List Byte).length : Nat) : Int) = 1 ∧
      ((1 : Int) = 1 ∨ (1 : Int) = 2 ∨ (1 : Int) = 4) ∧
      (255 : Nat) = 255 ∧ (255 : Nat) = 2 ^ (8 * ([3] : List Byte).length) - 1 :=
  C17_configuration_invariant 64 10 (Reader.ofBytes [3, 1, 2, 3]) Writer.fresh 1
    { r := Reader.ofBytes [3, 1, 2, 3], w := Writer.fresh, max := 255, sizeBuf := [0] }
    { r := { data := [], chunks := [] },
      w := { out := [2, 8, 9], script := [], log := [[2], [8, 9]] },
      max := 255, sizeBuf := [3] }
    [Call.Write [8, 9], Call.Read [0, 0, 0]] (by decide) (by rfl)

/-! ## Sequences of packets -/

theorem writeAll_accepted (intSize sizeLen : Nat)
    (hint : intSize = 32 ∨ intSize = 64) (ps : List (List Byte)) : ∀ (p : packetPort),
    Configured sizeLen p → p.w.script = [] →
    (∀ d ∈ ps, d.length ≤ 2 ^ (8 * sizeLen) - 1 ∧ d.length < 2 ^ (intSize - 1)) →
    (p.writeAll intSize ps).1 = ps.map (fun d => ((d.length : Int), none)) ∧
      (p.writeAll intSize ps).2.w.out = p.w.out ++ frames sizeLen ps ∧
      (p.writeAll intSize ps).2.r = p.r ∧
      (p.writeAll intSize ps).2.sizeBuf.length = sizeLen := by
  induction ps with
  | nil =>
    intro p hc _ _
    simp [packetPort.writeAll, frames, hc.2.1]
  | cons d ds ih =>
    intro p hc hs hall
    have hd := hall d (List.mem_cons_self _ _)
    have hW := Write_accepted intSize sizeLen p d hc hd.1 hint hd.2 (by simp [hs])
    have hc2 : Configured sizeLen (p.Write intSize d).2 := by
      rw [hW]
      exact ⟨hc.1, bigEndian_length _ _, hc.2.2⟩
    have hs2 : (p.Write intSize d).2.w.script = [] := by
      rw [hW]; simp [hs]
    obtain ⟨h1, h2, h3, h4⟩ := ih (p.Write intSize d).2 hc2 hs2
      (fun x hx => hall x (List.mem_cons_of_mem _ hx))
    refine ⟨?_, ?_, ?_, h4⟩
    · simp only [packetPort.writeAll, h1, List.map_cons]
      rw [hW]
    · simp only [packetPort.writeAll, h2, frames, frame]
      rw [hW]
      simp [List.append_assoc]
    · simp only [packetPort.writeAll, h3]
      rw [hW]

theorem readMany_frames (intSize fuel sizeLen : Nat)
    (hint : intSize = 32 ∨ intSize = 64) (hk : sizeLen = 1 ∨ sizeLen = 2 ∨ sizeLen = 4)
    (rest : List Byte) (ps : List (List Byte)) : ∀ (p : packetPort),
    p.sizeBuf.length = sizeLen → p.r.data = frames sizeLen ps ++ rest →
    (∀ d ∈ ps, d.length ≤ 2 ^ (8 * sizeLen) - 1 ∧ d.length < 2 ^ (intSize - 1) ∧
      sizeLen + d.length ≤ fuel) →
    ∃ p2, p.readMany intSize fuel ps.length =
        .ok (ps.map (fun d => (some d, none)), p2) ∧
      p2.r.data = rest ∧ (ps ≠ [] → p2.sizeBuf.length = sizeLen) ∧ (ps = [] → p2 = p) := by
  induction ps with
  | nil =>
    intro p hb hdata _
    exact ⟨p, rfl, by simpa [frames] using hdata, by simp, by simp⟩
  | cons d ds ih =>
    intro p hb hdata hall
    have hd := hall d (List.mem_cons_self _ _)
    obtain ⟨cs, hR⟩ := ReadOne_packet intSize fuel sizeLen p d (frames sizeLen ds ++ rest)
      hk hb (by rw [hdata]; simp [frames, frame, List.append_assoc]) hd.1 hint hd.2.1 hd.2.2
    obtain ⟨p2, h1, h2, h3, h4⟩ := ih
      { p with r := { data := frames sizeLen ds ++ rest, chunks := cs },
               sizeBuf := bigEndian sizeLen d.length }
      (bigEndian_length _ _) rfl (fun x hx => hall x (List.mem_cons_of_mem _ hx))
    refine ⟨p2, ?_, h2, ?_, by simp⟩
    · simp only [List.length_cons, packetPort.readMany, hR, h1, List.map_cons]
    · intro _
      by_cases hds : ds = []
      · rw [h4 hds]
        exact bigEndian_length _ _
      · exact h3 hds

theorem ReadOne_end_of_stream (intSize fuel : Nat) (p : packetPort)
    (hd : p.r.data = []) (hb : 0 < p.sizeBuf.length) (hf : 0 < fuel) :
    ∃ p1, p.ReadOne intSize fuel = .ok ((none, some Error.EOF), p1) := by
  obtain ⟨cs, h⟩ := readSize_short intSize fuel p (by simpa [hd] using hb) (by simpa [hd] using hf)
  refine ⟨{ p with r := { data := [], chunks := cs },
                   sizeBuf := p.r.data ++ p.sizeBuf.drop p.r.data.length }, ?_⟩
  simp [packetPort.ReadOne, h, hd]

/-- C14 (message sequencing): on a port built by `Packet` for a size length of 1, 2
or 4 bytes over an empty input stream and a writer that never fails, writing the
payloads `p1..pn` (each of length `≤ max`) in order returns `(len(pi), nil)` each
time; after that, on the paired stream, `n` calls of `ReadOne()` return `p1..pn` in
that order with nil errors and the next call returns `(nil, io.EOF)`. -/
theorem C14_sequencing (intSize fuel sizeLen : Nat) (r : Reader) (w : Writer)
    (p : packetPort) (ps : List (List Byte))
    (hint : intSize = 32 ∨ intSize = 64)
    (hk : sizeLen = 1 ∨ sizeLen = 2 ∨ sizeLen = 4)
    (hp : Packet r w (sizeLen : Int) = (some p, none))
    (hr : r.data = []) (hw : w.out = []) (hs : w.script = [])
    (hall : ∀ d ∈ ps, d.length ≤ 2 ^ (8 * sizeLen) - 1 ∧ d.length < 2 ^ (intSize - 1) ∧
      sizeLen + d.length ≤ fuel)
    (hf : 0 < fuel) :
    (p.writeAll intSize ps).1 = ps.map (fun d => ((d.length : Int), none)) ∧
      ∃ p2 p3, (p.writeAll intSize ps).2.deliver.readMany intSize fuel ps.length =
          .ok (ps.map (fun d => (some d, none)), p2) ∧
        p2.ReadOne intSize fuel = .ok ((none, some Error.EOF), p3) := by
  obtain ⟨hc, hpr, hpw⟩ := Packet_configured r w sizeLen p hk hp
  obtain ⟨h1, h2, h3, h4⟩ := writeAll_accepted intSize sizeLen hint ps p hc (by rw [hpw, hs])
    (fun d hd => ⟨(hall d hd).1, (hall d hd).2.1⟩)
  refine ⟨h1, ?_⟩
  obtain ⟨p2, hR, hd2, hb2, hb3⟩ := readMany_frames intSize fuel sizeLen hint hk [] ps
    (p.writeAll intSize ps).2.deliver (by simpa [packetPort.deliver] using h4)
    (by simp [packetPort.deliver, h2, h3, hpr, hpw, hr, hw]) hall
  have hlen : 0 < p2.sizeBuf.length := by
    by_cases hps : ps = []
    · rw [hb3 hps]
      simp only [packetPort.deliver]
      rw [h4]; omega
    · rw [hb2 hps]; omega
  obtain ⟨p3, hE⟩ := ReadOne_end_of_stream intSize fuel p2 hd2 hlen hf
  exact ⟨p2, p3, hR, hE⟩

/-- Witness of C14: a one-byte size length and the payloads `[1, 2]`, `[]`, `[3]`. -/
theorem C14_sequencing_witness :
    (packetPort.writeAll 64
        { r := Reader.ofBytes [], w := Writer.fresh, max := 255, sizeBuf := [0] }
        [[1, 2], [], [3]]).1 =
        ([[1, 2], [], [3]] : List (List Byte)).map (fun d => ((d.length : Int), none)) ∧
      ∃ p2 p3, (packetPort.writeAll 64
          { r := Reader.ofBytes [], w := Writer.fresh, max := 255, sizeBuf := [0] }
          [[1, 2], [], [3]]).2.deliver.readMany 64 3
            ([[1, 2], [], [3]] : List (List Byte)).length =
          .ok (([[1, 2], [], [3]] : List (List Byte)).map (fun d => (some d, none)), p2) ∧
        p2.ReadOne 64 3 = .ok ((none, some Error.EOF), p3) :=
  C14_sequencing 64 3 1 (Reader.ofBytes []) Writer.fresh
    { r := Reader.ofBytes [], w := Writer.fresh, max := 255, sizeBuf := [0] }
    [[1, 2], [], [3]] (Or.inr rfl) (by decide) (by decide) rfl rfl rfl (by decide) (by decide)

/-! ## `Read` and `ReadOne` side by side -/

theorem Reader.Read_congr (r : Reader) (p1 p2 : List Byte) (hlen : p1.length = p2.length) :
    (r.Read p1).1 = (r.Read p2).1 ∧ (r.Read p1).2.2 = (r.Read p2).2.2 ∧
      (r.Read p1).2.1.take (r.Read p1).1.1 = (r.Read p2).2.1.take (r.Read p1).1.1 ∧
      (r.Read p1).1.1 ≤ p1.length := by
  unfold Reader.Read
  rw [← hlen]
  split_ifs with h1 h2
  · simp
  · simp
  · have hk : min (min p1.length r.data.length)
        (match r.chunks with
          | [] => p1.length
          | c :: _ => c + 1) ≤ r.data.length := by
      cases r.chunks <;> simp
    refine ⟨rfl, rfl, ?_, ?_⟩
    · simp only
      rw [List.take_left' (by simp), List.take_left' (by simp)]
    · simp only
      cases r.chunks <;> simp

theorem take_add_append (l1 l2 : List Byte) (n k : Nat) (h : l1.length = n) :
    (l1 ++ l2).take (n + k) = l1 ++ l2.take k := by
  subst h
  exact List.take_append k

theorem ReadAtLeast.loop_congr (fuel : Nat) : ∀ (r : Reader) (b1 b2 : List Byte) (m n : Nat)
    (err : Option Error), b1.length = b2.length → b1.take n = b2.take n → n ≤ b1.length →
    (∀ h, ReadAtLeast.loop fuel r b1 m n err = .error h →
        ReadAtLeast.loop fuel r b2 m n err = .error h) ∧
      (∀ res c1 r1, ReadAtLeast.loop fuel r b1 m n err = .ok (res, c1, r1) →
        ∃ c2, ReadAtLeast.loop fuel r b2 m n err = .ok (res, c2, r1) ∧
          c1.take res.1 = c2.take res.1 ∧ res.1 ≤ b1.length) := by
  induction fuel with
  | zero =>
    intro r b1 b2 m n err hlen htake hn
    simp only [ReadAtLeast.loop]
    split_ifs with hg
    · simp
    · refine ⟨by simp, ?_⟩
      intro res c1 r1 h
      simp only [Except.ok.injEq, Prod.mk.injEq] at h
      obtain ⟨h1, h2, h3⟩ := h
      subst h1 h2 h3
      exact ⟨b2, rfl, htake, hn⟩
  | succ fuel ih =>
    intro r b1 b2 m n err hlen htake hn
    simp only [ReadAtLeast.loop]
    split_ifs with hg
    · have hd : (b1.drop n).length = (b2.drop n).length := by simp [hlen]
      obtain ⟨e1, e2, e3, e4⟩ := Reader.Read_congr r (b1.drop n) (b2.drop n) hd
      simp only [List.length_drop] at e4
      have hl1 : (b1.take n ++ (r.Read (b1.drop n)).2.1).length = b1.length := by
        simp [Reader.Read_length]; omega
      have hl2 : (b2.take n ++ (r.Read (b2.drop n)).2.1).length = b2.length := by
        simp [Reader.Read_length]; omega
      have ht : (b1.take n ++ (r.Read (b1.drop n)).2.1).take (n + (r.Read (b1.drop n)).1.1) =
          (b2.take n ++ (r.Read (b2.drop n)).2.1).take (n + (r.Read (b1.drop n)).1.1) := by
        have hn1 : (b1.take n).length = n := by simp; omega
        have hn2 : (b2.take n).length = n := by simp; omega
        rw [take_add_append _ _ n _ hn1, take_add_append _ _ n _ hn2, htake, e3]
      have := ih (r.Read (b1.drop n)).2.2 (b1.take n ++ (r.Read (b1.drop n)).2.1)
        (b2.take n ++ (r.Read (b2.drop n)).2.1) m (n + (r.Read (b1.drop n)).1.1)
        (r.Read (b1.drop n)).1.2 (by rw [hl1, hl2, hlen]) ht (by rw [hl1]; omega)
      rw [hl1] at this
      rw [← e1, ← e2]
      exact this
    · refine ⟨by simp, ?_⟩
      intro res c1 r1 h
      simp only [Except.ok.injEq, Prod.mk.injEq] at h
      obtain ⟨h1, h2, h3⟩ := h
      subst h1 h2 h3
      exact ⟨b2, rfl, htake, hn⟩

theorem ReadFull_congr (fuel : Nat) (r : Reader) (b1 b2 : List Byte)
    (hlen : b1.length = b2.length) :
    (∀ h, ReadFull fuel r b1 = .error h → ReadFull fuel r b2 = .error h) ∧
      (∀ res c1 r1, ReadFull fuel r b1 = .ok (res, c1, r1) →
        ∃ c2, ReadFull fuel r b2 = .ok (res, c2, r1) ∧
          c1.take res.1 = c2.take res.1 ∧ res.1 ≤ b1.length) := by
  obtain ⟨hE, hO⟩ := ReadAtLeast.loop_congr fuel r b1 b2 b1.length 0 none hlen (by simp)
    (Nat.zero_le _)
  simp only [ReadFull, ReadAtLeast, lt_self_iff_false, if_false, ← hlen]
  cases hl : ReadAtLeast.loop fuel r b1 b1.length 0 none with
  | error e =>
    rw [hE e hl]
    simp
  | ok v =>
    obtain ⟨⟨n, err⟩, c1, r1⟩ := v
    obtain ⟨c2, h2, h3, h4⟩ := hO (n, err) c1 r1 hl
    rw [h2]
    dsimp only
    refine ⟨by intro h; split_ifs <;> simp, ?_⟩
    intro res d1 s1 h
    simp only at h3 h4
    split_ifs at h with g1 g2
    · simp only [Except.ok.injEq, Prod.mk.injEq] at h
      obtain ⟨h5, h6, h7⟩ := h
      subst h5 h6 h7
      exact ⟨c2, by simp [g1], h3, h4⟩
    · simp only [Except.ok.injEq, Prod.mk.injEq] at h
      obtain ⟨h5, h6, h7⟩ := h
      subst h5 h6 h7
      exact ⟨c2, by simp [g1, g2], h3, h4⟩
    · simp only [Except.ok.injEq, Prod.mk.injEq] at h
      obtain ⟨h5, h6, h7⟩ := h
      subst h5 h6 h7
      exact ⟨c2, by simp [g1, g2], h3, h4⟩

/-- C18 (`Read` and `ReadOne` agree): started from the same port state, with a buffer
`out` at least as long as the size that `readSize` declares, `Read(out)` halts the way
`ReadOne()` halts, and when `ReadOne()` returns `(data, err)`, `Read(out)` returns
`(len(data), err)`, leaves the port (reader position included) in the same state, and
`out[0..len(data))` equals `data`. -/
theorem C18_read_readOne_agree (intSize fuel : Nat) (p : packetPort) (out : List Byte)
    (hout : ∀ size p1, p.readSize intSize fuel = .ok ((size, none), p1) →
      size ≤ (out.length : Int)) :
    (∀ h, p.ReadOne intSize fuel = .error h → p.Read intSize fuel out = .error h) ∧
      (∀ d e p1, p.ReadOne intSize fuel = .ok ((d, e), p1) →
        ∃ out1, p.Read intSize fuel out =
            .ok (((((d.getD []).length : Nat) : Int), e), out1, p1) ∧
          out1.take (d.getD []).length = d.getD []) := by
  simp only [packetPort.ReadOne, packetPort.Read]
  cases hr : p.readSize intSize fuel with
  | error h0 => simp
  | ok v =>
    obtain ⟨⟨size, err⟩, p2⟩ := v
    dsimp only
    by_cases he : err = none
    · subst he
      have hsz := hout size p2 hr
      by_cases h0 : size = 0
      · subst h0
        refine ⟨by simp, ?_⟩
        intro d e p1 h
        simp only [ne_eq, not_true_eq_false, if_false, if_true, Except.ok.injEq,
          Prod.mk.injEq] at h
        obtain ⟨⟨h1, h2⟩, h3⟩ := h
        subst h1 h2 h3
        exact ⟨out, by simp, by simp⟩
      · have hng : ¬ (size > (out.length : Int)) := by omega
        by_cases hneg : size < 0
        · simp [h0, hng, hneg]
        · have hl : (List.replicate size.toNat (0 : Byte)).length =
              (out.take size.toNat).length := by
            simp; omega
          obtain ⟨hE, hO⟩ := ReadFull_congr fuel p2.r (List.replicate size.toNat 0)
            (out.take size.toNat) hl
          simp only [ne_eq, not_true_eq_false, if_false, h0, hng, hneg]
          cases hf : ReadFull fuel p2.r (List.replicate size.toNat 0) with
          | error h1 =>
            rw [hE h1 hf]
            simp
          | ok v2 =>
            obtain ⟨⟨n, e2⟩, c1, r1⟩ := v2
            obtain ⟨c2, hc2, ht, hn⟩ := hO (n, e2) c1 r1 hf
            have hc1len := ReadFull_length fuel p2.r _ (n, e2) c1 r1 hf
            have hc2len := ReadFull_length fuel p2.r _ (n, e2) c2 r1 hc2
            simp only [List.length_replicate] at hn hc1len
            rw [hc2]
            refine ⟨by simp, ?_⟩
            intro d e p1 h
            simp only [Except.ok.injEq, Prod.mk.injEq] at h
            obtain ⟨⟨h1, h2⟩, h3⟩ := h
            subst h1 h2 h3
            have hlen : (c1.take n).length = n := by simp; omega
            refine ⟨c2 ++ out.drop size.toNat, by simp [hlen], ?_⟩
            simp only [Option.getD_some, hlen]
            rw [List.take_append_of_le_length (by rw [hc2len, ← hl]; simpa using hn)]
            exact ht.symm
    · refine ⟨by simp [he], ?_⟩
      intro d e p1 h
      simp only [ne_eq, he, not_false_eq_true, if_true, Except.ok.injEq, Prod.mk.injEq] at h
      obtain ⟨⟨h1, h2⟩, h3⟩ := h
      subst h1 h2 h3
      exact ⟨out, by simp [he], by simp⟩

/-- Witness of C18: a two-byte size length, a three-byte packet delivered one byte
per read, a buffer of four bytes. -/
theorem C18_read_readOne_agree_witness :
    (∀ h, packetPort.ReadOne 64 5
          { r := { data := [0, 3, 7, 8, 9, 1], chunks := [0, 0, 0, 0, 0] }, w := Writer.fresh,
            max := 65535, sizeBuf := [0, 0] } = .error h →
        packetPort.Read 64 5
          { r := { data := [0, 3, 7, 8, 9, 1], chunks := [0, 0, 0, 0, 0] }, w := Writer.fresh,
            max := 65535, sizeBuf := [0, 0] } [4, 4, 4, 4] = .error h) ∧
      (∀ d e p1, packetPort.ReadOne 64 5
          { r := { data := [0, 3, 7, 8, 9, 1], chunks := [0, 0, 0, 0, 0] }, w := Writer.fresh,
            max := 65535, sizeBuf := [0, 0] } = .ok ((d, e), p1) →
        ∃ out1, packetPort.Read 64 5
            { r := { data := [0, 3, 7, 8, 9, 1], chunks := [0, 0, 0, 0, 0] }, w := Writer.fresh,
              max := 65535, sizeBuf := [0, 0] } [4, 4, 4, 4] =
            .ok (((((d.getD []).length : Nat) : Int), e), out1, p1) ∧
          out1.take (d.getD []).length = d.getD []) :=
  C18_read_readOne_agree 64 5
    { r := { data := [0, 3, 7, 8, 9, 1], chunks := [0, 0, 0, 0, 0] }, w := Writer.fresh,
      max := 65535, sizeBuf := [0, 0] } [4, 4, 4, 4]
    (by
      intro size p1 h
      have hs : packetPort.readSize 64 5
          { r := { data := [0, 3, 7, 8, 9, 1], chunks := [0, 0, 0, 0, 0] }, w := Writer.fresh,
            max := 65535, sizeBuf := [0, 0] } =
          .ok ((3, none),
            { r := { data := [7, 8, 9, 1], chunks := [0, 0, 0] }, w := Writer.fresh,
              max := 65535, sizeBuf := [0, 3] }) := rfl
      rw [hs] at h
      simp only [Except.ok.injEq, Prod.mk.injEq] at h
      rw [← h.1.1]
      decide)

/-! ## End of stream seen by `ReadOne` -/

theorem ReadOne_cut_short (fuel sizeLen L : Nat) (p : packetPort) (part : List Byte)
    (hk : sizeLen = 1 ∨ sizeLen = 2 ∨ sizeLen = 4) (hbuf : p.sizeBuf.length = sizeLen)
    (hdata : p.r.data = bigEndian sizeLen L ++ part)
    (hL : L ≤ 2 ^ (8 * sizeLen) - 1)
    (hshort : part.length < L) (hf : sizeLen + part.length < fuel) :
    ∃ cs, p.ReadOne 64 fuel =
      .ok ((some part,
          some (if part.length = 0 then Error.EOF else Error.ErrUnexpectedEOF)),
        { p with r := { data := [], chunks := cs }, sizeBuf := bigEndian sizeLen L }) := by
  have hfit : L < 2 ^ (64 - 1) := by
    rcases hk with hk | hk | hk <;> subst hk <;> norm_num at hL ⊢ <;> omega
  obtain ⟨cs, h⟩ := readSize_header 64 fuel sizeLen L p part hk hbuf hdata hL (Or.inr rfl) hfit
    (by omega)
  obtain ⟨cs2, h2⟩ := ReadFull_short fuel { data := part, chunks := cs }
    (List.replicate L 0) (by simpa using hshort) (by simp; omega)
  refine ⟨cs2, ?_⟩
  have hL0 : L ≠ 0 := by omega
  simp only [List.length_replicate] at h2
  simp [packetPort.ReadOne, h, hL0, h2]

theorem bigEndian_injective (sizeLen a b : Nat)
    (hk : sizeLen = 1 ∨ sizeLen = 2 ∨ sizeLen = 4)
    (ha : a ≤ 2 ^ (8 * sizeLen) - 1) (hb : b ≤ 2 ^ (8 * sizeLen) - 1)
    (h : bigEndian sizeLen a = bigEndian sizeLen b) : a = b := by
  have h1 := getSize_putSize sizeLen a (bigEndian sizeLen a) hk (bigEndian_length _ _) ha
  have h2 := getSize_putSize sizeLen b (bigEndian sizeLen a) hk (bigEndian_length _ _) hb
  have e1 : packetPort.Write.putSize (bigEndian sizeLen a) (a : Int) = bigEndian sizeLen a := by
    simpa [packetPort.Write.putSize] using
      Write_sizeBuf sizeLen a (bigEndian sizeLen a) hk (bigEndian_length _ _) ha
  have e2 : packetPort.Write.putSize (bigEndian sizeLen a) (b : Int) = bigEndian sizeLen b := by
    simpa [packetPort.Write.putSize] using
      Write_sizeBuf sizeLen b (bigEndian sizeLen a) hk (bigEndian_length _ _) hb
  rw [e1] at h1
  rw [e2, ← h, h1] at h2
  simp only [Prod.mk.injEq, and_true] at h2
  exact_mod_cast h2

/-- C16, the claim fails: one-byte size length, a stream that delivers the size header
`3` and then ends.  A byte of the next message has been delivered and the header is
complete with `L = 3 > 0`, yet `ReadOne()` returns an empty slice with `io.EOF`. -/
theorem C16_eof_after_complete_header :
    ∃ p1, packetPort.ReadOne 64 4
        { r := Reader.ofBytes [3], w := Writer.fresh, max := 255, sizeBuf := [0] } =
      .ok ((some [], some Error.EOF), p1) :=
  ⟨_, rfl⟩

/-- C16 as amended: with a 64-bit `int`, on a port whose scratch buffer has 1, 2 or 4
bytes and a finite input stream, `ReadOne()` returns, and its error is `io.EOF`
exactly when the stream is empty (it ended at a message boundary) or holds nothing
but one complete size header declaring `L > 0` (it ended before any payload byte);
a stream that ends after a complete header and some but not all of the `L` payload
bytes gives `io.ErrUnexpectedEOF`. -/
theorem C16_eof_cases (fuel sizeLen : Nat) (p : packetPort)
    (hk : sizeLen = 1 ∨ sizeLen = 2 ∨ sizeLen = 4) (hbuf : p.sizeBuf.length = sizeLen)
    (hf : sizeLen + p.r.data.length < fuel) :
    ∃ d e p1, p.ReadOne 64 fuel = .ok ((d, e), p1) ∧
      (e = some Error.EOF ↔
        (p.r.data = [] ∨
          ∃ L, 0 < L ∧ L ≤ 2 ^ (8 * sizeLen) - 1 ∧ p.r.data = bigEndian sizeLen L)) ∧
      (∀ L part, L ≤ 2 ^ (8 * sizeLen) - 1 → p.r.data = bigEndian sizeLen L ++ part →
        0 < part.length → part.length < L → e = some Error.ErrUnexpectedEOF) := by
  by_cases hshort : p.r.data.length < sizeLen
  · -- the stream ends inside the size header
    obtain ⟨cs, h⟩ := readSize_short 64 fuel p (by omega) (by omega)
    refine ⟨none, some (if p.r.data.length = 0 then Error.EOF else Error.ErrUnexpectedEOF),
      { p with r := { data := [], chunks := cs },
               sizeBuf := p.r.data ++ p.sizeBuf.drop p.r.data.length }, ?_, ?_, ?_⟩
    · simp [packetPort.ReadOne, h]
    · constructor
      · intro he
        left
        by_cases h0 : p.r.data.length = 0
        · exact List.eq_nil_of_length_eq_zero h0
        · rw [if_neg h0] at he
          exact absurd he (by decide)
      · rintro (h0 | ⟨L, _, _, hL⟩)
        · simp [h0]
        · have := congrArg List.length hL
          rw [bigEndian_length] at this
          omega
    · intro L part _ hd _ _
      have := congrArg List.length hd
      simp [bigEndian_length] at this
      omega
  · -- the size header is complete
    have hsplit : p.r.data = p.r.data.take sizeLen ++ p.r.data.drop sizeLen :=
      (List.take_append_drop _ _).symm
    obtain ⟨v, hv, hbe, _⟩ := header_value sizeLen (p.r.data.take sizeLen) hk
      (by simp; omega)
    have hfit : v < 2 ^ (64 - 1) := by
      rcases hk with hk | hk | hk <;> subst hk <;> norm_num at hv ⊢ <;> omega
    have htl : (p.r.data.drop sizeLen).length = p.r.data.length - sizeLen := by simp
    have huniq : ∀ L part, L ≤ 2 ^ (8 * sizeLen) - 1 →
        p.r.data = bigEndian sizeLen L ++ part → L = v ∧ part = p.r.data.drop sizeLen := by
      intro L part hL hd
      have h1 : p.r.data.take sizeLen = bigEndian sizeLen L := by
        rw [hd]; exact List.take_left' (bigEndian_length _ _)
      have h2 : p.r.data.drop sizeLen = part := by
        rw [hd]; exact List.drop_left' (bigEndian_length _ _)
      exact ⟨bigEndian_injective sizeLen L v hk hL hv (by rw [← h1, hbe]), h2.symm⟩
    have hne : p.r.data ≠ [] := by
      intro h0
      rw [h0] at hshort
      simp at hshort
      omega
    by_cases hcut : (p.r.data.drop sizeLen).length < v
    · -- the stream ends inside the payload, or right after the header
      obtain ⟨cs, h⟩ := ReadOne_cut_short fuel sizeLen v p (p.r.data.drop sizeLen) hk hbuf
        (by rw [← hbe]; exact hsplit) hv hcut (by omega)
      refine ⟨_, _, _, h, ?_, ?_⟩
      · constructor
        · intro he
          right
          by_cases h0 : (p.r.data.drop sizeLen).length = 0
          · refine ⟨v, by omega, hv, ?_⟩
            have hnil := List.eq_nil_of_length_eq_zero h0
            rw [hsplit, hnil, hbe]
            simp
          · rw [if_neg h0] at he
            exact absurd he (by decide)
        · rintro (h0 | ⟨L, hpos, hL, hd⟩)
          · exact absurd h0 hne
          · obtain ⟨_, h2⟩ := huniq L [] hL (by simpa using hd)
            rw [← h2]
            simp
      · intro L part hL hd hpos _
        obtain ⟨_, h2⟩ := huniq L part hL hd
        rw [← h2]
        have : part.length ≠ 0 := by omega
        simp [this]
    · -- the whole packet is there
      have hd2 : p.r.data = bigEndian sizeLen ((p.r.data.drop sizeLen).take v).length ++
          (p.r.data.drop sizeLen).take v ++ (p.r.data.drop sizeLen).drop v := by
        have hl : ((p.r.data.drop sizeLen).take v).length = v := by
          rw [List.length_take]; omega
        rw [hl, List.append_assoc, List.take_append_drop, ← hbe]
        exact hsplit
      have hl : ((p.r.data.drop sizeLen).take v).length = v := by
        rw [List.length_take]; omega
      obtain ⟨cs, h⟩ := ReadOne_packet 64 fuel sizeLen p ((p.r.data.drop sizeLen).take v)
        ((p.r.data.drop sizeLen).drop v) hk hbuf hd2 (by rw [hl]; exact hv) (Or.inr rfl)
        (by rw [hl]; exact hfit) (by rw [hl]; omega)
      refine ⟨_, _, _, h, ?_, ?_⟩
      · constructor
        · intro he
          simp at he
        · rintro (h0 | ⟨L, hpos, hL, hd⟩)
          · exact absurd h0 hne
          · obtain ⟨h1, h2⟩ := huniq L [] hL (by simpa using hd)
            rw [← h2] at hcut
            simp at hcut
            omega
      · intro L part hL hd _ hlt
        obtain ⟨h1, h2⟩ := huniq L part hL hd
        rw [← h2, ← h1] at hcut
        omega

/-- Witness of the amended C16: a two-byte header declaring 3 bytes and one payload
byte. -/
theorem C16_eof_cases_witness :
    ∃ d e p1, packetPort.ReadOne 64 6
        { r := Reader.ofBytes [0, 3, 9], w := Writer.fresh, max := 65535, sizeBuf := [0, 0] } =
        .ok ((d, e), p1) ∧
      (e = some Error.EOF ↔
        ((Reader.ofBytes [0, 3, 9]).data = [] ∨
          ∃ L, 0 < L ∧ L ≤ 2 ^ (8 * 2) - 1 ∧ (Reader.ofBytes [0, 3, 9]).data = bigEndian 2 L)) ∧
      (∀ L part, L ≤ 2 ^ (8 * 2) - 1 → (Reader.ofBytes [0, 3, 9]).data = bigEndian 2 L ++ part →
        0 < part.length → part.length < L → e = some Error.ErrUnexpectedEOF) :=
  C16_eof_cases 6 2
    { r := Reader.ofBytes [0, 3, 9], w := Writer.fresh, max := 65535, sizeBuf := [0, 0] }
    (by decide) rfl (by decide)

end Port
